import Mathlib

/-!
Verification of the boxblur core (libavfilter/vf_boxblur.c).

The development shallowly embeds the filter's computational core over a flat
byte-addressed memory: the 1-D sliding box blur `blur`, the power compositor
`blur_power` with its two ping-pong scratch buffers, the horizontal and
vertical plane drivers `hblur` and `vblur`, and the parameter resolver
(`init` and `config_input`).  A pure functional model (`blurVal`, `winSum`,
`iterBlur`) is proved to agree with the memory-level code and is used to
settle the specified properties.
-/

namespace BoxBlur

/-- Byte-addressed memory: each address holds one 8-bit sample.  Stores reduce
the written int modulo 256, matching C's conversion to `uint8_t`. -/
abbrev Mem := Nat → Nat

/-- Store an int value into a byte cell (value taken mod 256, as in C). -/
def wr8 (m : Mem) (a : Nat) (v : Int) : Mem :=
  fun x => if x = a then (v.emod 256).toNat else m x

/-- Fixed-point normalization applied to each output sample:
`(sum*inv + (1<<15)) >> 16` with arithmetic right shift, i.e. floor division
by 2^16. -/
def outv (sum inv : Int) : Int := (sum * inv + 32768).fdiv 65536

/-- Accumulator initialization of `blur`:
`for (x = 0; x < radius; x++) sum += src[x*src_step] << 1`. -/
def initSum (m : Mem) (src ss : Nat) : Nat → Int
  | 0 => 0
  | x+1 => initSum m src ss x + 2 * (m (src + x*ss) : Int)

/-- One output loop of `blur`: `n` iterations starting at output index `x`.
Each step slides the accumulator by the incoming sample at source index `ai x`
and the outgoing sample at source index `si x`, then stores one normalized
output sample. -/
def loopRun (dst ds src ss : Nat) (inv : Int) (ai si : Nat → Nat) :
    Nat → Nat → Mem × Int → Mem × Int
  | 0, _, ms => ms
  | n+1, x, ms =>
    let sum := ms.2 + (ms.1 (src + ai x * ss) : Int) - (ms.1 (src + si x * ss) : Int)
    loopRun dst ds src ss inv ai si n (x+1) (wr8 ms.1 (dst + x*ds) (outv sum inv), sum)

/-- The 1-D sliding box blur (function `blur` of vf_boxblur.c): source run of
`len` samples at base `src` with stride `ss`, destination run at base `dst`
with stride `ds`.  The three `loopRun` segments are the left-boundary loop
(`x = 0 .. radius`), the interior loop (`x < len-radius`) and the
right-boundary loop (`x < len`), exactly as in the source. -/
def blur (m : Mem) (dst ds src ss len radius : Nat) : Mem :=
  let length := 2*radius + 1
  let inv : Int := ((65536 + length / 2) / length : Nat)
  let sum0 : Int := initSum m src ss radius + (m (src + radius*ss) : Int)
  let ms1 := loopRun dst ds src ss inv (fun x => radius + x) (fun x => radius - x)
      (radius+1) 0 (m, sum0)
  let n2 := len - radius - (radius+1)
  let ms2 := loopRun dst ds src ss inv (fun x => radius + x) (fun x => x - radius - 1)
      n2 (radius+1) ms1
  let st3 := radius + 1 + n2
  let ms3 := loopRun dst ds src ss inv (fun x => 2*len - radius - x - 1)
      (fun x => x - radius - 1) (len - st3) st3 ms2
  ms3.1

/-- Plain copy loop `for (i = 0; i < n; i++) dst[i*dst_step] = src[i*src_step]`,
threaded through memory one cell at a time (`i` is the current index). -/
def copyLoop (dst ds src ss : Nat) : Nat → Nat → Mem → Mem
  | 0, _, m => m
  | n+1, i, m => copyLoop dst ds src ss n (i+1) (wr8 m (dst + i*ds) (m (src + i*ss) : Int))

/-- The ping-pong loop of `blur_power`:
`for (; power > 2; power--) { blur(b, 1, a, 1, len, radius); c = a; a = b; b = c; }`.
Returns the memory together with the buffer that ends up as `a`. -/
def powLoop (len radius : Nat) : Nat → Nat → Nat → Mem → Mem × Nat
  | 0, a, _, m => (m, a)
  | 1, a, _, m => (m, a)
  | 2, a, _, m => (m, a)
  | p+3, a, b, m => powLoop len radius (p+2) b a (blur m b 1 a 1 len radius)

/-- The power compositor (function `blur_power` of vf_boxblur.c), with scratch
buffers based at `t0` and `t1` (unit stride).  For nonzero radius and power it
blurs the source into `t0`, ping-pongs `power-2` times, and produces the final
iteration directly in the destination (by one more blur if `power > 1`, else by
copying); otherwise it copies the source to the destination unchanged. -/
def blur_power (m : Mem) (dst ds src ss len radius power t0 t1 : Nat) : Mem :=
  if radius ≠ 0 ∧ power ≠ 0 then
    let m1 := blur m t0 1 src ss len radius
    let mb := powLoop len radius power t0 t1 m1
    if 1 < power then blur mb.1 dst ds mb.2 1 len radius
    else copyLoop dst ds mb.2 1 len 0 mb.1
  else copyLoop dst ds src ss len 0 m

/-- Row loop of the horizontal driver: one `blur_power` per row. -/
def hblurLoop (dst dls src sls w radius power t0 t1 : Nat) : Nat → Nat → Mem → Mem
  | 0, _, m => m
  | n+1, y, m =>
    hblurLoop dst dls src sls w radius power t0 t1 n (y+1)
      (blur_power m (dst + y*dls) 1 (src + y*sls) 1 w radius power t0 t1)

/-- Horizontal driver `hblur`: early-out when the radius is zero and the
destination plane is the source plane, else blur every row. -/
def hblur (m : Mem) (dst dls src sls w h radius power t0 t1 : Nat) : Mem :=
  if radius = 0 ∧ dst = src then m
  else hblurLoop dst dls src sls w radius power t0 t1 h 0 m

/-- Column loop of the vertical driver: one `blur_power` per column, with the
plane linesize as the run stride. -/
def vblurLoop (dst dls src sls h radius power t0 t1 : Nat) : Nat → Nat → Mem → Mem
  | 0, _, m => m
  | n+1, x, m =>
    vblurLoop dst dls src sls h radius power t0 t1 n (x+1)
      (blur_power m (dst + x) dls (src + x) sls h radius power t0 t1)

/-- Vertical driver `vblur`: early-out when the radius is zero and the
destination plane is the source plane, else blur every column. -/
def vblur (m : Mem) (dst dls src sls w h radius power t0 t1 : Nat) : Mem :=
  if radius = 0 ∧ dst = src then m
  else vblurLoop dst dls src sls h radius power t0 t1 w 0 m

/-! ### Pure functional model of the 1-D blur -/

/-- Pure counterpart of `initSum` over a sample sequence. -/
def dsum (s : Nat → Nat) : Nat → Int
  | 0 => 0
  | x+1 => dsum s x + 2 * (s x : Int)

/-- Source index whose sample enters the accumulator at output position `x`
(left/interior loops use `radius + x`; the right-boundary loop mirrors). -/
def addIdx (len radius x : Nat) : Nat :=
  if x ≤ radius ∨ x < len - radius then radius + x else 2*len - radius - x - 1

/-- Source index whose sample leaves the accumulator at output position `x`
(the left-boundary loop re-subtracts the mirrored prefix). -/
def subIdx (radius x : Nat) : Nat :=
  if x ≤ radius then radius - x else x - radius - 1

/-- Pure accumulator fold: `n` sliding steps starting at position `x`. -/
def pureSum (s : Nat → Nat) (ai si : Nat → Nat) : Int → Nat → Nat → Int
  | sum, _, 0 => sum
  | sum, x, n+1 => pureSum s ai si (sum + (s (ai x) : Int) - (s (si x) : Int)) (x+1) n

/-- Fixed-point reciprocal of the window length: `((1<<16) + length/2)/length`. -/
def invRad (radius : Nat) : Int := ((65536 + (2*radius+1) / 2) / (2*radius+1) : Nat)

/-- Value of the sliding accumulator when output position `x` is stored. -/
def sumAt (s : Nat → Nat) (len radius x : Nat) : Int :=
  pureSum s (addIdx len radius) (subIdx radius) (dsum s radius + (s radius : Int)) 0 (x+1)

/-- The exact int value computed by the fixed-point normalization for output
position `x` of a single blur pass. -/
def blurVal (s : Nat → Nat) (len radius x : Nat) : Int :=
  outv (sumAt s len radius x) (invRad radius)

/-- One pure blur pass producing the stored bytes (mod 256). -/
def blurByte (s : Nat → Nat) (len radius : Nat) : Nat → Nat :=
  fun x => ((blurVal s len radius x).emod 256).toNat

/-- The 1-D box blur applied `p` times in sequence. -/
def iterBlur (len radius : Nat) : Nat → (Nat → Nat) → Nat → Nat
  | 0, s => s
  | p+1, s => blurByte (iterBlur len radius p s) len radius

/-- Boundary reflection of a (possibly out of range) source position: the
convention realized by the code doubles edge contributions, i.e. reflects
about the half-sample boundary. -/
def mirror (len : Nat) (i : Int) : Nat :=
  if i < 0 then (-1 - i).toNat
  else if (len : Int) ≤ i then (2*(len : Int) - 1 - i).toNat
  else i.toNat

/-- Window characterization of the accumulator: sum of the `2*radius+1`
boundary-reflected samples centered on `x`. -/
def winSum (s : Nat → Nat) (len radius x : Nat) : Int :=
  ∑ j ∈ Finset.range (2*radius+1), (s (mirror len ((x : Int) - radius + j)) : Int)

/-- Largest source index (exclusive) that a single blur pass may read: the
interior loops stay below `len`, the left-boundary loop reaches `2*radius`. -/
def readBound (len radius : Nat) : Nat := max len (2*radius+1)

/-- Concrete memory holding the specified test-vector source run at
addresses `0..6`. -/
def vecMem : Mem := fun a => [0, 0, 0, 255, 0, 0, 0].getD a 0

/-- Radius condition under which one blur pass moves every constant byte value
by at most one and is then idempotent: the fixed-point product `length * inv`
stays within `[2^16 - 129, 2^16 + 128]`. -/
def stableRad (radius : Nat) : Prop :=
  65407 ≤ (2*radius+1) * ((65536 + radius) / (2*radius+1)) ∧
  (2*radius+1) * ((65536 + radius) / (2*radius+1)) ≤ 65664

instance (radius : Nat) : Decidable (stableRad radius) := by
  unfold stableRad
  infer_instance

/-- Corner conditions under which the fixed-point normalization reproduces the
exact rounded average for every window sum of byte samples (split of the sum
as `q * length + s`, with the linear bounds taken at the corners of the
`(q, s)` domain). -/
def cornerOK (radius : Nat) : Prop :=
  let inv : Int := ((65536 + radius) / (2*radius+1) : Nat)
  let e : Int := ((65536 + radius) % (2*radius+1) : Nat)
  let a : Int := (radius : Int) - e
  0 ≤ 254 * min a 0 + 32768 ∧
  254 * max a 0 + (radius : Int) * inv + 32768 < 65536 ∧
  0 ≤ 255 * a + 32768 ∧
  255 * a + 32768 < 65536 ∧
  (radius = 0 ∨
    (65536 ≤ 254 * min a 0 + ((radius : Int) + 1) * inv + 32768 ∧
     254 * max a 0 + 2 * (radius : Int) * inv + 32768 < 131072))

instance (radius : Nat) : Decidable (cornerOK radius) := by
  unfold cornerOK
  infer_instance

/-! ### Parameter resolver model -/

/-- Per-component blur parameters (struct FilterParam): evaluated radius, the
iteration count (negative means the unspecified sentinel), and the radius
expression string (`none` means unset). -/
structure FilterParam where
  radius : Int
  power : Int
  radius_expr : Option String
deriving DecidableEq

/-- Filter private context (the option-controlled fields of
struct BoxBlurContext). -/
structure BoxBlurContext where
  luma_param : FilterParam
  chroma_param : FilterParam
  alpha_param : FilterParam
deriving DecidableEq

/-- Component names used in configuration error reports. -/
inductive Comp where
  | luma
  | chroma
  | alpha
deriving DecidableEq

/-- Configuration errors surfaced to the host (all map to negative AVERROR
codes; `invalidRadius` corresponds to EINVAL and carries the offending
component and the reported maximum allowed value). -/
inductive CfgError where
  | missingLumaRadius
  | evalError (c : Comp)
  | invalidRadius (c : Comp) (maxAllowed : Int)
deriving DecidableEq

/-- Function init() of vf_boxblur.c: reject a missing luma radius expression;
default the chroma and alpha radius expressions to a copy of the luma
expression when unset; default a negative (unspecified) chroma or alpha power
to the luma power. -/
def init (bb : BoxBlurContext) : Except CfgError BoxBlurContext :=
  match bb.luma_param.radius_expr with
  | none => Except.error CfgError.missingLumaRadius
  | some _ =>
    let c := bb.chroma_param
    let c := if c.radius_expr = none then
               { c with radius_expr := bb.luma_param.radius_expr } else c
    let c := if c.power < 0 then { c with power := bb.luma_param.power } else c
    let a := bb.alpha_param
    let a := if a.radius_expr = none then
               { a with radius_expr := bb.luma_param.radius_expr } else a
    let a := if a.power < 0 then { a with power := bb.luma_param.power } else a
    Except.ok { bb with chroma_param := c, alpha_param := a }

/-- Evaluation environment for radius expressions: the variables w, h, cw, ch,
hsub, vsub exactly as config_input() fills var_values[]. -/
structure VarVals where
  w : Int
  h : Int
  cw : Int
  ch : Int
  hsub : Int
  vsub : Int
deriving DecidableEq

/-- Geometry environment: `cw = w >> hsub`, `ch = h >> vsub`,
`hsub = 1 << log2_chroma_w`, `vsub = 1 << log2_chroma_h`. -/
def mkVarVals (w h hsub vsub : Nat) : VarVals :=
  { w := (w : Int), h := (h : Int), cw := ((w >>> hsub : Nat) : Int),
    ch := ((h >>> vsub : Nat) : Int), hsub := ((2^hsub : Nat) : Int),
    vsub := ((2^vsub : Nat) : Int) }

/-- Resolved per-plane parameters: the radius[4] and power[4] arrays indexed
Y, U, V, A. -/
structure Resolved where
  radiusY : Int
  radiusU : Int
  radiusV : Int
  radiusA : Int
  powerY : Int
  powerU : Int
  powerV : Int
  powerA : Int
deriving DecidableEq

/-- Function config_input() of vf_boxblur.c: evaluate the three radius
expressions in the geometry environment (reporting the first failing
component), validate each radius in order against its plane bounds (luma and
alpha against the full frame, chroma against the subsampled chroma size), and
fill the per-plane arrays (U and V share the chroma parameters).  The
expression evaluator `eval` (av_expr_parse_and_eval) is host functionality and
is abstracted as a function argument. -/
def config_input (eval : String → VarVals → Option Int) (bb : BoxBlurContext)
    (w h hsub vsub : Nat) : Except CfgError Resolved :=
  let cw := w >>> hsub
  let ch := h >>> vsub
  let vv := mkVarVals w h hsub vsub
  match bb.luma_param.radius_expr.bind (fun e => eval e vv) with
  | none => Except.error (CfgError.evalError Comp.luma)
  | some rl =>
  match bb.chroma_param.radius_expr.bind (fun e => eval e vv) with
  | none => Except.error (CfgError.evalError Comp.chroma)
  | some rc =>
  match bb.alpha_param.radius_expr.bind (fun e => eval e vv) with
  | none => Except.error (CfgError.evalError Comp.alpha)
  | some ra =>
  if rl < 0 ∨ 2*rl > ((min w h : Nat) : Int) then
    Except.error (CfgError.invalidRadius Comp.luma (((min w h) / 2 : Nat) : Int))
  else if rc < 0 ∨ 2*rc > ((min cw ch : Nat) : Int) then
    Except.error (CfgError.invalidRadius Comp.chroma (((min cw ch) / 2 : Nat) : Int))
  else if ra < 0 ∨ 2*ra > ((min w h : Nat) : Int) then
    Except.error (CfgError.invalidRadius Comp.alpha (((min w h) / 2 : Nat) : Int))
  else
    Except.ok { radiusY := rl, radiusU := rc, radiusV := rc, radiusA := ra,
                powerY := bb.luma_param.power, powerU := bb.chroma_param.power,
                powerV := bb.chroma_param.power, powerA := bb.alpha_param.power }

/-! ### Basic memory lemmas -/

theorem wr8_same (m : Mem) (a : Nat) (v : Int) : wr8 m a v a = (v.emod 256).toNat := by
  simp [wr8]

theorem wr8_other (m : Mem) (a : Nat) (v : Int) (x : Nat) (h : x ≠ a) : wr8 m a v x = m x := by
  simp [wr8, h]

theorem addr_inj {ds i j : Nat} (dst : Nat) (hds : 0 < ds)
    (h : dst + i*ds = dst + j*ds) : i = j :=
  Nat.eq_of_mul_eq_mul_right hds (Nat.add_left_cancel h)

/-! ### Pure accumulator fold lemmas -/

theorem pureSum_add (s : Nat → Nat) (ai si : Nat → Nat) :
    ∀ (n₁ : Nat) (sum : Int) (x n₂ : Nat),
      pureSum s ai si sum x (n₁ + n₂) =
        pureSum s ai si (pureSum s ai si sum x n₁) (x + n₁) n₂ := by
  intro n₁
  induction n₁ with
  | zero => intro sum x n₂; simp [pureSum]
  | succ k ih =>
    intro sum x n₂
    have h1 : k + 1 + n₂ = (k + n₂) + 1 := by omega
    rw [h1]
    show pureSum s ai si (sum + (s (ai x) : Int) - (s (si x) : Int)) (x+1) (k + n₂) = _
    rw [ih]
    have hx : x + (k + 1) = x + 1 + k := by omega
    rw [hx]
    rfl

theorem pureSum_snoc (s : Nat → Nat) (ai si : Nat → Nat) (sum : Int) (x n : Nat) :
    pureSum s ai si sum x (n + 1) =
      pureSum s ai si sum x n + (s (ai (x + n)) : Int) - (s (si (x + n)) : Int) := by
  rw [pureSum_add s ai si n sum x 1]
  rfl

theorem pureSum_congr (s t : Nat → Nat) (ai si ai₂ si₂ : Nat → Nat) :
    ∀ (n : Nat) (sum : Int) (x : Nat),
      (∀ k, k < n → s (ai (x+k)) = t (ai₂ (x+k)) ∧ s (si (x+k)) = t (si₂ (x+k))) →
      pureSum s ai si sum x n = pureSum t ai₂ si₂ sum x n := by
  intro n
  induction n with
  | zero => intro sum x _; rfl
  | succ k ih =>
    intro sum x h
    have h0 := h 0 (by omega)
    show pureSum s ai si (sum + (s (ai x) : Int) - (s (si x) : Int)) (x+1) k = _
    rw [(by simpa using h0.1 : s (ai x) = t (ai₂ x)), (by simpa using h0.2 : s (si x) = t (si₂ x))]
    exact ih _ (x+1) (fun j hj => by
      have := h (j+1) (by omega)
      constructor
      · simpa [Nat.add_assoc, Nat.add_comm 1 j] using this.1
      · simpa [Nat.add_assoc, Nat.add_comm 1 j] using this.2)

/-! ### Output loop lemmas -/

theorem loopRun_frame (dst ds src ss : Nat) (inv : Int) (ai si : Nat → Nat) :
    ∀ (n x : Nat) (ms : Mem × Int) (a : Nat),
      (∀ k, k < n → a ≠ dst + (x+k)*ds) →
      (loopRun dst ds src ss inv ai si n x ms).1 a = ms.1 a := by
  intro n
  induction n with
  | zero => intro x ms a _; rfl
  | succ k ih =>
    intro x ms a h
    simp only [loopRun]
    rw [ih (x+1) _ a (fun j hj => by
      have := h (j+1) (by omega)
      simpa [Nat.add_assoc, Nat.add_comm 1 j] using this)]
    exact wr8_other _ _ _ _ (by simpa using h 0 (by omega))

/-- Correctness of one output loop segment.  Provided every write lands outside
every read, the loop computes the pure fold: the final accumulator is the pure
fold of the snapshot `s`, every written cell holds the normalized prefix fold,
and nothing else changes. -/
theorem loopRun_spec (dst ds src ss : Nat) (inv : Int) (ai si : Nat → Nat)
    (s : Nat → Nat) (hds : 0 < ds) :
    ∀ (n x : Nat) (m : Mem) (sum : Int),
      (∀ k, k < n → m (src + ai (x+k) * ss) = s (ai (x+k)) ∧
                    m (src + si (x+k) * ss) = s (si (x+k))) →
      (∀ k j, k < n → j < n → dst + (x+k)*ds ≠ src + ai (x+j) * ss ∧
                              dst + (x+k)*ds ≠ src + si (x+j) * ss) →
      (loopRun dst ds src ss inv ai si n x (m, sum)).2 = pureSum s ai si sum x n ∧
      (∀ k, k < n → (loopRun dst ds src ss inv ai si n x (m, sum)).1 (dst + (x+k)*ds)
          = ((outv (pureSum s ai si sum x (k+1)) inv).emod 256).toNat) := by
  intro n
  induction n with
  | zero =>
    intro x m sum _ _
    exact ⟨rfl, fun k hk => absurd hk (by omega)⟩
  | succ nn ih =>
    intro x m sum hs hnc
    have h0 := hs 0 (by omega)
    simp only [Nat.add_zero] at h0
    have hsum1 : sum + (m (src + ai x * ss) : Int) - (m (src + si x * ss) : Int)
        = sum + (s (ai x) : Int) - (s (si x) : Int) := by rw [h0.1, h0.2]
    simp only [loopRun]
    set m1 : Mem := wr8 m (dst + x*ds)
        (outv (sum + (m (src + ai x * ss) : Int) - (m (src + si x * ss) : Int)) inv) with hm1
    have hs1 : ∀ k, k < nn → m1 (src + ai (x+1+k) * ss) = s (ai (x+1+k)) ∧
                            m1 (src + si (x+1+k) * ss) = s (si (x+1+k)) := by
      intro k hk
      have hk1 := hs (k+1) (by omega)
      have hd1 := hnc 0 (k+1) (by omega) (by omega)
      simp only [Nat.add_zero] at hd1
      have e1 : x + (k+1) = x + 1 + k := by omega
      rw [e1] at hk1 hd1
      constructor
      · rw [hm1, wr8_other _ _ _ _ (Ne.symm hd1.1)]; exact hk1.1
      · rw [hm1, wr8_other _ _ _ _ (Ne.symm hd1.2)]; exact hk1.2
    have hnc1 : ∀ k j, k < nn → j < nn → dst + (x+1+k)*ds ≠ src + ai (x+1+j) * ss ∧
                                          dst + (x+1+k)*ds ≠ src + si (x+1+j) * ss := by
      intro k j hk hj
      have := hnc (k+1) (j+1) (by omega) (by omega)
      have e1 : x + (k+1) = x + 1 + k := by omega
      have e2 : x + (j+1) = x + 1 + j := by omega
      rw [e1, e2] at this
      exact this
    obtain ⟨ihsum, ihval⟩ := ih (x+1) m1
        (sum + (m (src + ai x * ss) : Int) - (m (src + si x * ss) : Int)) hs1 hnc1
    constructor
    · rw [ihsum, hsum1]; rfl
    · intro k hk
      match k with
      | 0 =>
        simp only [Nat.add_zero]
        rw [loopRun_frame dst ds src ss inv ai si nn (x+1) _ (dst + x*ds)
          (fun j hj => by
            intro hcontra
            have := addr_inj dst hds hcontra
            omega)]
        show wr8 m (dst + x*ds)
            (outv (sum + (m (src + ai x * ss) : Int) - (m (src + si x * ss) : Int)) inv)
            (dst + x*ds) = _
        rw [wr8_same, hsum1]
        rfl
      | k'+1 =>
        have e1 : x + (k'+1) = x + 1 + k' := by omega
        rw [e1, ihval k' (by omega), hsum1]
        rfl

/-! ### Index characterizations of the three loop segments -/

theorem addIdx_left (len radius k : Nat) (hk : k ≤ radius) :
    addIdx len radius k = radius + k := by
  unfold addIdx; exact if_pos (Or.inl hk)

theorem addIdx_mid (len radius k : Nat) (hk : k < len - radius) :
    addIdx len radius k = radius + k := by
  unfold addIdx; exact if_pos (Or.inr hk)

theorem addIdx_right (len radius k : Nat) (h1 : radius < k) (h2 : len - radius ≤ k) :
    addIdx len radius k = 2*len - radius - k - 1 := by
  unfold addIdx; exact if_neg (by omega)

theorem subIdx_left (radius k : Nat) (hk : k ≤ radius) :
    subIdx radius k = radius - k := by
  unfold subIdx; exact if_pos hk

theorem subIdx_right (radius k : Nat) (hk : radius < k) :
    subIdx radius k = k - radius - 1 := by
  unfold subIdx; exact if_neg (by omega)

theorem initSum_eq (m : Mem) (src ss : Nat) (s : Nat → Nat) :
    ∀ r, (∀ i, i < r → m (src + i*ss) = s i) → initSum m src ss r = dsum s r := by
  intro r
  induction r with
  | zero => intro _; rfl
  | succ k ih =>
    intro h
    show initSum m src ss k + 2*(m (src + k*ss) : Int) = dsum s k + 2*(s k : Int)
    rw [ih (fun i hi => h i (by omega)), h k (by omega)]

/-! ### Correctness of `blur` against the pure model -/

/-- Unfolding of `blur` as three chained `loopRun` segments. -/
theorem blur_def (m : Mem) (dst ds src ss len radius : Nat) :
    blur m dst ds src ss len radius =
      (loopRun dst ds src ss (invRad radius)
        (fun x => 2*len - radius - x - 1) (fun x => x - radius - 1)
        (len - (radius + 1 + (len - radius - (radius+1))))
        (radius + 1 + (len - radius - (radius+1)))
        (loopRun dst ds src ss (invRad radius)
          (fun x => radius + x) (fun x => x - radius - 1)
          (len - radius - (radius+1)) (radius+1)
          (loopRun dst ds src ss (invRad radius)
            (fun x => radius + x) (fun x => radius - x)
            (radius+1) 0 (m, initSum m src ss radius + (m (src + radius*ss) : Int))))).1 :=
  rfl

/-- Frame property: `blur` writes nothing outside its destination run. -/
theorem blur_frame (m : Mem) (dst ds src ss len radius : Nat) (hrl : radius < len) (a : Nat)
    (ha : ∀ x, x < len → a ≠ dst + x*ds) :
    blur m dst ds src ss len radius a = m a := by
  have e3 : ∀ ms : Mem × Int, (loopRun dst ds src ss (invRad radius)
      (fun x => 2*len - radius - x - 1) (fun x => x - radius - 1)
      (len - (radius + 1 + (len - radius - (radius+1))))
      (radius + 1 + (len - radius - (radius+1))) ms).1 a = ms.1 a :=
    fun ms => loopRun_frame _ _ _ _ _ _ _ _ _ ms a (fun k hk => ha _ (by omega))
  have e2 : ∀ ms : Mem × Int, (loopRun dst ds src ss (invRad radius)
      (fun x => radius + x) (fun x => x - radius - 1)
      (len - radius - (radius+1)) (radius+1) ms).1 a = ms.1 a :=
    fun ms => loopRun_frame _ _ _ _ _ _ _ _ _ ms a (fun k hk => ha _ (by omega))
  have e1 : ∀ ms : Mem × Int, (loopRun dst ds src ss (invRad radius)
      (fun x => radius + x) (fun x => radius - x) (radius+1) 0 ms).1 a = ms.1 a :=
    fun ms => loopRun_frame _ _ _ _ _ _ _ _ _ ms a (fun k hk => ha _ (by omega))
  rw [blur_def, e3, e2, e1]

/-- Value correctness of `blur`: provided the destination run does not alias
the source read window, every output sample `x < len` receives the stored byte
of the pure model value `blurVal s len radius x`, where `s` is any snapshot
agreeing with the source run. -/
theorem blur_spec (m : Mem) (dst ds src ss len radius : Nat) (s : Nat → Nat)
    (hds : 0 < ds) (hrl : radius < len)
    (hs : ∀ i, i < readBound len radius → m (src + i*ss) = s i)
    (hdisj : ∀ i j, i < len → j < readBound len radius → dst + i*ds ≠ src + j*ss) :
    ∀ x, x < len → blur m dst ds src ss len radius (dst + x*ds)
        = ((blurVal s len radius x).emod 256).toNat := by
  intro x hx
  have hRB1 : len ≤ readBound len radius := le_max_left _ _
  have hRB2 : 2*radius+1 ≤ readBound len radius := le_max_right _ _
  -- segment parameters
  have hsum0 : initSum m src ss radius + (m (src + radius*ss) : Int)
      = dsum s radius + (s radius : Int) := by
    rw [initSum_eq m src ss s radius (fun i hi => hs i (by omega)), hs radius (by omega)]
  -- segment 1
  obtain ⟨hseg1sum, hseg1val⟩ := loopRun_spec dst ds src ss (invRad radius)
    (fun x => radius + x) (fun x => radius - x) s hds (radius+1) 0 m
    (initSum m src ss radius + (m (src + radius*ss) : Int))
    (fun k hk => ⟨hs _ (by (try simp only [Nat.zero_add]); omega), hs _ (by (try simp only [Nat.zero_add]); omega)⟩)
    (fun k j hk hj => ⟨hdisj _ _ (by (try simp only [Nat.zero_add]); omega) (by (try simp only [Nat.zero_add]); omega), hdisj _ _ (by (try simp only [Nat.zero_add]); omega) (by (try simp only [Nat.zero_add]); omega)⟩)
  -- memory and sum after segment 1
  have hm1s : ∀ i, i < readBound len radius →
      (loopRun dst ds src ss (invRad radius) (fun x => radius + x) (fun x => radius - x)
        (radius+1) 0 (m, initSum m src ss radius + (m (src + radius*ss) : Int))).1
        (src + i*ss) = s i := by
    intro i hi
    rw [loopRun_frame _ _ _ _ _ _ _ _ _ _ _
      (fun k hk => Ne.symm (hdisj _ _ (by omega) hi))]
    exact hs i hi
  -- segment 2
  obtain ⟨hseg2sum, hseg2val⟩ := loopRun_spec dst ds src ss (invRad radius)
    (fun x => radius + x) (fun x => x - radius - 1) s hds
    (len - radius - (radius+1)) (radius+1)
    (loopRun dst ds src ss (invRad radius) (fun x => radius + x) (fun x => radius - x)
      (radius+1) 0 (m, initSum m src ss radius + (m (src + radius*ss) : Int))).1
    (loopRun dst ds src ss (invRad radius) (fun x => radius + x) (fun x => radius - x)
      (radius+1) 0 (m, initSum m src ss radius + (m (src + radius*ss) : Int))).2
    (fun k hk => ⟨hm1s _ (by (try simp only [Nat.zero_add]); omega), hm1s _ (by (try simp only [Nat.zero_add]); omega)⟩)
    (fun k j hk hj => ⟨hdisj _ _ (by (try simp only [Nat.zero_add]); omega) (by (try simp only [Nat.zero_add]); omega), hdisj _ _ (by (try simp only [Nat.zero_add]); omega) (by (try simp only [Nat.zero_add]); omega)⟩)
  -- memory after segment 2
  have hm2s : ∀ i, i < readBound len radius →
      (loopRun dst ds src ss (invRad radius) (fun x => radius + x) (fun x => x - radius - 1)
        (len - radius - (radius+1)) (radius+1)
        (loopRun dst ds src ss (invRad radius) (fun x => radius + x) (fun x => radius - x)
          (radius+1) 0 (m, initSum m src ss radius + (m (src + radius*ss) : Int)))).1
        (src + i*ss) = s i := by
    intro i hi
    rw [loopRun_frame _ _ _ _ _ _ _ _ _ _ _
      (fun k hk => Ne.symm (hdisj _ _ (by omega) hi))]
    exact hm1s i hi
  -- segment 3
  obtain ⟨hseg3sum, hseg3val⟩ := loopRun_spec dst ds src ss (invRad radius)
    (fun x => 2*len - radius - x - 1) (fun x => x - radius - 1) s hds
    (len - (radius + 1 + (len - radius - (radius+1)))) (radius + 1 + (len - radius - (radius+1)))
    (loopRun dst ds src ss (invRad radius) (fun x => radius + x) (fun x => x - radius - 1)
      (len - radius - (radius+1)) (radius+1)
      (loopRun dst ds src ss (invRad radius) (fun x => radius + x) (fun x => radius - x)
        (radius+1) 0 (m, initSum m src ss radius + (m (src + radius*ss) : Int)))).1
    (loopRun dst ds src ss (invRad radius) (fun x => radius + x) (fun x => x - radius - 1)
      (len - radius - (radius+1)) (radius+1)
      (loopRun dst ds src ss (invRad radius) (fun x => radius + x) (fun x => radius - x)
        (radius+1) 0 (m, initSum m src ss radius + (m (src + radius*ss) : Int)))).2
    (fun k hk => ⟨hm2s _ (by (try simp only [Nat.zero_add]); omega), hm2s _ (by (try simp only [Nat.zero_add]); omega)⟩)
    (fun k j hk hj => ⟨hdisj _ _ (by (try simp only [Nat.zero_add]); omega) (by (try simp only [Nat.zero_add]); omega), hdisj _ _ (by (try simp only [Nat.zero_add]); omega) (by (try simp only [Nat.zero_add]); omega)⟩)
  -- conversion of segment-local folds to the global accumulator `sumAt`
  have hglob1 : pureSum s (fun x => radius + x) (fun x => radius - x)
      (dsum s radius + (s radius : Int)) 0 (radius+1)
      = pureSum s (addIdx len radius) (subIdx radius) (dsum s radius + (s radius : Int)) 0
          (radius+1) :=
    pureSum_congr s s _ _ _ _ (radius+1) _ 0 (fun k hk =>
      ⟨congrArg s (addIdx_left len radius (0+k) (by omega)).symm,
       congrArg s (subIdx_left radius (0+k) (by omega)).symm⟩)
  rw [blur_def]
  by_cases hA : x ≤ radius
  · -- written by segment 1, untouched afterwards
    have step3 := loopRun_frame dst ds src ss (invRad radius)
      (fun x => 2*len - radius - x - 1) (fun x => x - radius - 1)
      (len - (radius + 1 + (len - radius - (radius+1))))
      (radius + 1 + (len - radius - (radius+1)))
      (loopRun dst ds src ss (invRad radius) (fun x => radius + x) (fun x => x - radius - 1)
        (len - radius - (radius+1)) (radius+1)
        (loopRun dst ds src ss (invRad radius) (fun x => radius + x) (fun x => radius - x)
          (radius+1) 0 (m, initSum m src ss radius + (m (src + radius*ss) : Int))))
      (dst + x*ds)
      (fun k hk => by intro hcontra; have := addr_inj dst hds hcontra; omega)
    have step2 := loopRun_frame dst ds src ss (invRad radius)
      (fun x => radius + x) (fun x => x - radius - 1)
      (len - radius - (radius+1)) (radius+1)
      (loopRun dst ds src ss (invRad radius) (fun x => radius + x) (fun x => radius - x)
        (radius+1) 0 (m, initSum m src ss radius + (m (src + radius*ss) : Int)))
      (dst + x*ds)
      (fun k hk => by intro hcontra; have := addr_inj dst hds hcontra; omega)
    have h1 := hseg1val x (by omega)
    simp only [Nat.zero_add] at h1
    rw [step3, step2, h1]
    have hval : pureSum s (fun x => radius + x) (fun x => radius - x)
        (initSum m src ss radius + (m (src + radius*ss) : Int)) 0 (x+1)
        = sumAt s len radius x := by
      rw [hsum0]
      unfold sumAt
      exact pureSum_congr s s _ _ _ _ (x+1) _ 0 (fun k hk =>
        ⟨congrArg s (addIdx_left len radius (0+k) (by omega)).symm,
         congrArg s (subIdx_left radius (0+k) (by omega)).symm⟩)
    rw [hval]
    rfl
  by_cases hB : x < radius + 1 + (len - radius - (radius+1))
  · -- written by segment 2, untouched afterwards
    have step3 := loopRun_frame dst ds src ss (invRad radius)
      (fun x => 2*len - radius - x - 1) (fun x => x - radius - 1)
      (len - (radius + 1 + (len - radius - (radius+1))))
      (radius + 1 + (len - radius - (radius+1)))
      (loopRun dst ds src ss (invRad radius) (fun x => radius + x) (fun x => x - radius - 1)
        (len - radius - (radius+1)) (radius+1)
        (loopRun dst ds src ss (invRad radius) (fun x => radius + x) (fun x => radius - x)
          (radius+1) 0 (m, initSum m src ss radius + (m (src + radius*ss) : Int))))
      (dst + x*ds)
      (fun k hk => by intro hcontra; have := addr_inj dst hds hcontra; omega)
    have h2 := hseg2val (x - (radius+1)) (by omega)
    have e2 : radius + 1 + (x - (radius+1)) = x := by omega
    rw [e2] at h2
    have e2n : x - (radius+1) + 1 = x - radius := by omega
    rw [e2n] at h2
    refine (step3.trans (h2.trans ?_))
    have hval : pureSum s (fun x => radius + x) (fun x => x - radius - 1)
        ((loopRun dst ds src ss (invRad radius) (fun x => radius + x) (fun x => radius - x)
          (radius+1) 0 (m, initSum m src ss radius + (m (src + radius*ss) : Int))).2)
        (radius+1) (x - radius)
        = sumAt s len radius x := by
      rw [hseg1sum, hsum0, hglob1]
      rw [pureSum_congr s s (fun x => radius + x) (fun x => x - radius - 1)
        (addIdx len radius) (subIdx radius) (x - radius) _ (radius+1) (fun k hk =>
          ⟨congrArg s (addIdx_mid len radius (radius+1+k) (by omega)).symm,
           congrArg s (subIdx_right radius (radius+1+k) (by omega)).symm⟩)]
      unfold sumAt
      rw [show x + 1 = (radius+1) + (x - radius) by omega,
        pureSum_add s (addIdx len radius) (subIdx radius) (radius+1) _ 0 (x - radius)]
      simp only [Nat.zero_add]
    rw [hval]
    rfl
  · -- written by segment 3
    have h3 := hseg3val (x - (radius + 1 + (len - radius - (radius+1)))) (by omega)
    have e3 : radius + 1 + (len - radius - (radius+1))
        + (x - (radius + 1 + (len - radius - (radius+1)))) = x := by omega
    rw [e3] at h3
    refine h3.trans ?_
    have hval : pureSum s (fun x => 2*len - radius - x - 1) (fun x => x - radius - 1)
        ((loopRun dst ds src ss (invRad radius) (fun x => radius + x) (fun x => x - radius - 1)
          (len - radius - (radius+1)) (radius+1)
          (loopRun dst ds src ss (invRad radius) (fun x => radius + x) (fun x => radius - x)
            (radius+1) 0 (m, initSum m src ss radius + (m (src + radius*ss) : Int)))).2)
        (radius + 1 + (len - radius - (radius+1)))
        (x - (radius + 1 + (len - radius - (radius+1))) + 1)
        = sumAt s len radius x := by
      rw [hseg2sum, hseg1sum, hsum0, hglob1]
      rw [pureSum_congr s s (fun x => radius + x) (fun x => x - radius - 1)
        (addIdx len radius) (subIdx radius) (len - radius - (radius+1)) _ (radius+1)
        (fun k hk =>
          ⟨congrArg s (addIdx_mid len radius (radius+1+k) (by omega)).symm,
           congrArg s (subIdx_right radius (radius+1+k) (by omega)).symm⟩)]
      rw [pureSum_congr s s (fun x => 2*len - radius - x - 1) (fun x => x - radius - 1)
        (addIdx len radius) (subIdx radius)
        (x - (radius + 1 + (len - radius - (radius+1))) + 1) _
        (radius + 1 + (len - radius - (radius+1))) (fun k hk =>
          ⟨congrArg s (addIdx_right len radius (radius + 1 + (len - radius - (radius+1)) + k)
              (by omega) (by omega)).symm,
           congrArg s (subIdx_right radius (radius + 1 + (len - radius - (radius+1)) + k)
              (by omega)).symm⟩)]
      unfold sumAt
      rw [show x + 1 = (radius + 1 + (len - radius - (radius+1)))
            + (x - (radius + 1 + (len - radius - (radius+1))) + 1) by omega,
        pureSum_add s (addIdx len radius) (subIdx radius)
          (radius + 1 + (len - radius - (radius+1))) _ 0 _,
        pureSum_add s (addIdx len radius) (subIdx radius) (radius+1) _ 0
          (len - radius - (radius+1))]
      simp only [Nat.zero_add]
    rw [hval]
    rfl

/-! ### Copy loop lemmas -/

theorem byte_lt (v : Int) : (v.emod 256).toNat < 256 := by
  have h : v.emod 256 = v % 256 := rfl
  rw [h]
  omega

theorem emod256_natCast (n : Nat) : ((n : Int).emod 256).toNat = n % 256 := by
  have h : (n : Int).emod 256 = (n : Int) % 256 := rfl
  rw [h]
  omega

theorem copyLoop_frame (dst ds src ss : Nat) :
    ∀ (n i : Nat) (m : Mem) (a : Nat), (∀ k, k < n → a ≠ dst + (i+k)*ds) →
      copyLoop dst ds src ss n i m a = m a := by
  intro n
  induction n with
  | zero => intro i m a _; rfl
  | succ nn ih =>
    intro i m a h
    show copyLoop dst ds src ss nn (i+1) _ a = m a
    rw [ih (i+1) _ a (fun k hk => by
      have := h (k+1) (by omega)
      simpa [Nat.add_assoc, Nat.add_comm 1 k] using this)]
    exact wr8_other _ _ _ _ (by simpa using h 0 (by omega))

/-- Correctness of the copy loop: if no write clobbers a later read, every
destination cell receives the source byte reduced mod 256. -/
theorem copyLoop_spec (dst ds src ss : Nat) (hds : 0 < ds) :
    ∀ (n i : Nat) (m : Mem),
      (∀ k j, k < j → j < n → dst + (i+k)*ds ≠ src + (i+j)*ss) →
      ∀ k, k < n → copyLoop dst ds src ss n i m (dst + (i+k)*ds)
          = m (src + (i+k)*ss) % 256 := by
  intro n
  induction n with
  | zero => intro i m _ k hk; omega
  | succ nn ih =>
    intro i m hnc k hk
    show copyLoop dst ds src ss nn (i+1) (wr8 m (dst + i*ds) (m (src + i*ss) : Int)) _ = _
    match k with
    | 0 =>
      simp only [Nat.add_zero]
      rw [copyLoop_frame dst ds src ss nn (i+1) _ (dst + i*ds) (fun j hj => by
        intro hcontra
        have := addr_inj dst hds hcontra
        omega)]
      rw [wr8_same, emod256_natCast]
    | k'+1 =>
      have e1 : i + (k'+1) = (i+1) + k' := by omega
      rw [e1, ih (i+1) _ (fun a b hab hb => by
        have := hnc (a+1) (b+1) (by omega) (by omega)
        have ea : i + (a+1) = i + 1 + a := by omega
        have eb : i + (b+1) = i + 1 + b := by omega
        rw [ea, eb] at this
        exact this) k' (by omega)]
      rw [wr8_other]
      have := hnc 0 (k'+1) (by omega) (by omega)
      simp only [Nat.add_zero] at this
      rw [e1] at this
      exact Ne.symm this

/-! ### Power compositor correctness in the contract regime `2*radius < len` -/

theorem readBound_eq (len radius : Nat) (h : 2*radius < len) :
    readBound len radius = len := by
  unfold readBound
  omega

theorem iterBlur_lt (len radius p : Nat) (s : Nat → Nat) (hp : p ≠ 0) (i : Nat) :
    iterBlur len radius p s i < 256 := by
  match p with
  | q+1 => exact byte_lt _

/-- Invariant of the ping-pong loop: if the current front buffer holds the
`k+1`-fold blurred run, the loop leaves the final front buffer holding the
`k+1+(p-2)`-fold blurred run, and touches nothing outside the two scratch
runs. -/
theorem powLoop_spec (len radius t0 t1 : Nat) (s : Nat → Nat)
    (h2r : 2*radius < len) (hr : radius ≠ 0)
    (hT01 : ∀ i j, i < len → j < len → t0 + i ≠ t1 + j) :
    ∀ (p a b : Nat) (m : Mem) (k : Nat),
      ((a = t0 ∧ b = t1) ∨ (a = t1 ∧ b = t0)) →
      (∀ i, i < len → m (a + i) = iterBlur len radius (k+1) s i) →
      ((powLoop len radius p a b m).2 = a ∨ (powLoop len radius p a b m).2 = b) ∧
      (∀ i, i < len → (powLoop len radius p a b m).1 ((powLoop len radius p a b m).2 + i)
          = iterBlur len radius (k+1+(p-2)) s i) ∧
      (∀ x, (∀ i, i < len → x ≠ t0 + i ∧ x ≠ t1 + i) →
          (powLoop len radius p a b m).1 x = m x) := by
    intro p
    induction p using Nat.strong_induction_on with
    | _ p ih =>
      match p with
      | 0 =>
        intro a b m k _ hm
        have hstep : powLoop len radius 0 a b m = (m, a) := by simp only [powLoop]
        rw [hstep]
        exact ⟨Or.inl rfl, fun i hi => hm i hi, fun x _ => rfl⟩
      | 1 =>
        intro a b m k _ hm
        have hstep : powLoop len radius 1 a b m = (m, a) := by simp only [powLoop]
        rw [hstep]
        exact ⟨Or.inl rfl, fun i hi => hm i hi, fun x _ => rfl⟩
      | 2 =>
        intro a b m k _ hm
        have hstep : powLoop len radius 2 a b m = (m, a) := by simp only [powLoop]
        rw [hstep]
        exact ⟨Or.inl rfl, fun i hi => hm i hi, fun x _ => rfl⟩
      | q+3 =>
        intro a b m k hab hm
        have hstep : powLoop len radius (q+3) a b m
            = powLoop len radius (q+2) b a (blur m b 1 a 1 len radius) := by
          simp only [powLoop]
        have hrl : radius < len := by omega
        have hRB : readBound len radius = len := readBound_eq len radius h2r
        have hba : (b = t0 ∧ a = t1) ∨ (b = t1 ∧ a = t0) := hab.symm.imp And.symm And.symm
        have hdisjba : ∀ i j, i < len → j < readBound len radius → b + i*1 ≠ a + j*1 := by
          intro i j hi hj
          rw [hRB] at hj
          simp only [Nat.mul_one]
          rcases hab with ⟨ha, hb⟩ | ⟨ha, hb⟩
          · rw [ha, hb]; exact fun hc => absurd hc.symm (hT01 j i hj hi)
          · rw [ha, hb]; exact hT01 i j hi hj
        have hvals := blur_spec m b 1 a 1 len radius (iterBlur len radius (k+1) s)
          (by omega) hrl
          (fun i hi => by
            rw [hRB] at hi
            simpa using hm i hi)
          hdisjba
        have hm1 : ∀ i, i < len →
            blur m b 1 a 1 len radius (b + i) = iterBlur len radius (k+2) s i := by
          intro i hi
          have := hvals i hi
          simpa using this
        obtain ⟨hres, hvals2, hframe2⟩ := ih (q+2) (by omega) b a
          (blur m b 1 a 1 len radius) (k+1) hba hm1
        refine ⟨?_, ?_, ?_⟩
        · rw [hstep]
          exact hres.symm.imp id id
        · intro i hi
          rw [hstep, hvals2 i hi, show k+1+1+(q+2-2) = k+1+(q+3-2) by omega]
        · intro x hx
          rw [hstep, hframe2 x hx]
          refine blur_frame _ _ _ _ _ _ _ hrl x (fun i hi => ?_)
          simp only [Nat.mul_one]
          rcases hab with ⟨_, hb⟩ | ⟨_, hb⟩
          · rw [hb]; exact (hx i hi).2
          · rw [hb]; exact (hx i hi).1

/-- Correctness of the power compositor in the contract regime `2*radius < len`,
for nonzero radius and power: with non-aliasing scratch buffers, the
destination run receives the `power`-fold blurred source run, and nothing
outside the destination and scratch runs changes.  The destination may alias
the source arbitrarily: the source is consumed whole before the destination is
written. -/
theorem blur_power_spec (m : Mem) (dst ds src ss len radius power t0 t1 : Nat)
    (s : Nat → Nat)
    (hds : 0 < ds) (h2r : 2*radius < len) (hr : radius ≠ 0) (hp : power ≠ 0)
    (hs : ∀ i, i < len → m (src + i*ss) = s i)
    (hT01 : ∀ i j, i < len → j < len → t0 + i ≠ t1 + j)
    (hT0src : ∀ i j, i < len → j < len → t0 + i ≠ src + j*ss)
    (hT1src : ∀ i j, i < len → j < len → t1 + i ≠ src + j*ss)
    (hdT0 : ∀ i j, i < len → j < len → dst + i*ds ≠ t0 + j)
    (hdT1 : ∀ i j, i < len → j < len → dst + i*ds ≠ t1 + j) :
    (∀ i, i < len → blur_power m dst ds src ss len radius power t0 t1 (dst + i*ds)
        = iterBlur len radius power s i) ∧
    (∀ x, (∀ i, i < len → x ≠ dst + i*ds ∧ x ≠ t0 + i ∧ x ≠ t1 + i) →
        blur_power m dst ds src ss len radius power t0 t1 x = m x) := by
  have hrl : radius < len := by omega
  have hRB := readBound_eq len radius h2r
  have hbp : blur_power m dst ds src ss len radius power t0 t1
      = (if 1 < power then
          blur (powLoop len radius power t0 t1 (blur m t0 1 src ss len radius)).1 dst ds
            (powLoop len radius power t0 t1 (blur m t0 1 src ss len radius)).2 1 len radius
         else
          copyLoop dst ds (powLoop len radius power t0 t1 (blur m t0 1 src ss len radius)).2 1
            len 0 (powLoop len radius power t0 t1 (blur m t0 1 src ss len radius)).1) := by
    unfold blur_power
    rw [if_pos ⟨hr, hp⟩]
  -- stage 1: blur the source into t0
  have hst1 := blur_spec m t0 1 src ss len radius s (by omega) hrl
    (fun i hi => hs i (hRB ▸ hi))
    (fun i j hi hj => by
      simp only [Nat.mul_one]
      exact hT0src i j hi (hRB ▸ hj))
  have hm1vals : ∀ i, i < len →
      blur m t0 1 src ss len radius (t0 + i) = iterBlur len radius (0+1) s i := by
    intro i hi
    have := hst1 i hi
    simpa using this
  have hm1frame : ∀ x, (∀ i, i < len → x ≠ t0 + i) →
      blur m t0 1 src ss len radius x = m x := by
    intro x hx
    refine blur_frame _ _ _ _ _ _ _ hrl x (fun i hi => ?_)
    simpa using hx i hi
  -- ping-pong
  obtain ⟨hres, hvals2, hframe2⟩ := powLoop_spec len radius t0 t1 s h2r hr hT01
    power t0 t1 (blur m t0 1 src ss len radius) 0 (Or.inl ⟨rfl, rfl⟩) hm1vals
  constructor
  · intro i hi
    rw [hbp]
    by_cases h1p : 1 < power
    · rw [if_pos h1p]
      have hfin := blur_spec (powLoop len radius power t0 t1 (blur m t0 1 src ss len radius)).1
        dst ds (powLoop len radius power t0 t1 (blur m t0 1 src ss len radius)).2 1 len radius
        (iterBlur len radius (0+1+(power-2)) s) hds hrl
        (fun j hj => by
          simpa using hvals2 j (hRB ▸ hj))
        (fun a j ha hj => by
          simp only [Nat.mul_one]
          rcases hres with h | h
          · rw [h]; exact hdT0 a j ha (hRB ▸ hj)
          · rw [h]; exact hdT1 a j ha (hRB ▸ hj))
      rw [hfin i hi]
      obtain ⟨w, rfl⟩ : ∃ w, power = w + 2 := ⟨power - 2, by omega⟩
      rw [show 0+1+(w+2-2) = w+1 by omega]
      rfl
    · have hpw : power = 1 := by omega
      subst hpw
      rw [if_neg h1p]
      have hcopy := copyLoop_spec dst ds
        (powLoop len radius 1 t0 t1 (blur m t0 1 src ss len radius)).2 1 hds len 0
        (powLoop len radius 1 t0 t1 (blur m t0 1 src ss len radius)).1
        (fun a b hab hb => by
          simp only [Nat.zero_add, Nat.mul_one]
          rcases hres with h | h
          · rw [h]; exact hdT0 a b (by omega) hb
          · rw [h]; exact hdT1 a b (by omega) hb)
        i hi
      simp only [Nat.zero_add, Nat.mul_one] at hcopy
      rw [hcopy]
      have := hvals2 i hi
      rw [this]
      exact Nat.mod_eq_of_lt (iterBlur_lt len radius _ s (by omega) i)
  · intro x hx
    rw [hbp]
    by_cases h1p : 1 < power
    · rw [if_pos h1p]
      rw [blur_frame _ _ _ _ _ _ _ hrl x (fun i hi => by
        simpa using (hx i hi).1)]
      rw [hframe2 x (fun i hi => ⟨(hx i hi).2.1, (hx i hi).2.2⟩)]
      exact hm1frame x (fun i hi => (hx i hi).2.1)
    · rw [if_neg h1p]
      rw [copyLoop_frame dst ds _ 1 len 0 _ x (fun k hk => by
        simpa using (hx k hk).1)]
      rw [hframe2 x (fun i hi => ⟨(hx i hi).2.1, (hx i hi).2.2⟩)]
      exact hm1frame x (fun i hi => (hx i hi).2.1)

/-! ### Claim C1: the concrete test vector -/

/-- C1: applying the 1-D blur via `blur_power` with radius 1 and power 1, unit
strides, to the source run `[0,0,0,255,0,0,0]` of length 7 produces exactly
the output run `[0,0,85,85,85,0,0]` (destination at base 100, scratch buffers
at 200 and 300). -/
theorem c1_blur_power_vector :
    (List.range 7).map (fun i => blur_power vecMem 100 1 0 1 7 1 1 200 300 (100 + i))
      = [0, 0, 85, 85, 85, 0, 0] := by decide

/-! ### Claim C2: identity for radius 0 or power 0 -/

/-- C2: for every source run, if `radius = 0` (any power) or `power = 0` (any
radius), `blur_power` writes an exact byte-for-byte copy of the source run
into the destination run; the no-clobber hypothesis `hnc` covers both a
destination disjoint from the source and the aligned in-place case. -/
theorem c2_blur_power_identity (m : Mem) (dst ds src ss len radius power t0 t1 : Nat)
    (hds : 0 < ds)
    (hrp : radius = 0 ∨ power = 0)
    (hnc : ∀ i j, i < j → j < len → dst + i*ds ≠ src + j*ss)
    (hbytes : ∀ i, i < len → m (src + i*ss) < 256) :
    ∀ i, i < len → blur_power m dst ds src ss len radius power t0 t1 (dst + i*ds)
        = m (src + i*ss) := by
  intro i hi
  have hcond : ¬ (radius ≠ 0 ∧ power ≠ 0) := by tauto
  unfold blur_power
  rw [if_neg hcond]
  have := copyLoop_spec dst ds src ss hds len 0 m
    (fun k j hkj hj => by simpa using hnc k j hkj hj) i hi
  simp only [Nat.zero_add] at this
  rw [this]
  exact Nat.mod_eq_of_lt (hbytes i hi)

theorem c2_blur_power_identity_witness :
    blur_power (fun _ => 7) 50 1 0 1 3 0 5 200 300 (50 + 1*1) = (fun _ => 7) (0 + 1*1) :=
  c2_blur_power_identity (fun _ => 7) 50 1 0 1 3 0 5 200 300 (by decide)
    (Or.inl rfl) (fun i j hij hj => by omega) (fun i _ => by show (7:Nat) < 256; decide)
    1 (by decide)

/-! ### Claim C3: the power compositor equals the p-fold sequential blur -/

/-- C3: for every source run, radius `r ≥ 1` and power `p ≥ 1`, `blur_power`
with its two ping-pong scratch buffers produces a destination run equal to
applying the 1-D box blur `p` times in sequence (`iterBlur`); in particular
for `p = 1` the destination holds `iterBlur len radius 1 s = blurByte s`, a
single blur of the source. -/
theorem c3_blur_power_iterates (m : Mem) (dst ds src ss len radius power t0 t1 : Nat)
    (s : Nat → Nat)
    (hds : 0 < ds) (h2r : 2*radius < len) (hr : 1 ≤ radius) (hp : 1 ≤ power)
    (hs : ∀ i, i < len → m (src + i*ss) = s i)
    (hT01 : ∀ i j, i < len → j < len → t0 + i ≠ t1 + j)
    (hT0src : ∀ i j, i < len → j < len → t0 + i ≠ src + j*ss)
    (hT1src : ∀ i j, i < len → j < len → t1 + i ≠ src + j*ss)
    (hdT0 : ∀ i j, i < len → j < len → dst + i*ds ≠ t0 + j)
    (hdT1 : ∀ i j, i < len → j < len → dst + i*ds ≠ t1 + j) :
    ∀ i, i < len → blur_power m dst ds src ss len radius power t0 t1 (dst + i*ds)
        = iterBlur len radius power s i :=
  (blur_power_spec m dst ds src ss len radius power t0 t1 s hds h2r
    (by omega) (by omega) hs hT01 hT0src hT1src hdT0 hdT1).1

theorem c3_blur_power_iterates_witness :
    blur_power (fun a => [10, 20, 30].getD a 0) 300 1 0 1 3 1 2 100 200 (300 + 1*1)
      = iterBlur 3 1 2 (fun i => (fun a => [10, 20, 30].getD a 0) (0 + i*1)) 1 ∧
    iterBlur 3 1 2 (fun i => (fun a => [10, 20, 30].getD a 0) (0 + i*1)) 1 = 20 := by
  constructor
  · exact c3_blur_power_iterates (fun a => [10, 20, 30].getD a 0) 300 1 0 1 3 1 2 100 200
      (fun i => (fun a => [10, 20, 30].getD a 0) (0 + i*1))
      (by decide) (by decide) (by decide) (by decide)
      (fun i hi => rfl)
      (fun i j hi hj => by omega) (fun i j hi hj => by omega) (fun i j hi hj => by omega)
      (fun i j hi hj => by omega) (fun i j hi hj => by omega)
      1 (by decide)
  · decide

/-! ### Window characterization of the sliding accumulator -/

theorem dsum_eq (s : Nat → Nat) : ∀ r, dsum s r = ∑ k ∈ Finset.range r, (2 * (s k : Int)) := by
  intro r
  induction r with
  | zero => simp [dsum]
  | succ n ih =>
    rw [Finset.sum_range_succ, ← ih]
    rfl

theorem sumAt_succ (s : Nat → Nat) (len radius x : Nat) :
    sumAt s len radius (x+1) = sumAt s len radius x
      + (s (addIdx len radius (x+1)) : Int) - (s (subIdx radius (x+1)) : Int) := by
  unfold sumAt
  rw [pureSum_snoc]
  simp only [Nat.zero_add]

theorem addIdx_eq_mirror (len radius x : Nat) (h2r : 2*radius < len) (hx : x < len) :
    addIdx len radius x = mirror len ((x:Int) + radius) := by
  unfold addIdx mirror
  split_ifs <;> omega

theorem subIdx_eq_mirror (len radius x : Nat) (h2r : 2*radius < len) (hx : x < len) :
    subIdx radius x = mirror len ((x:Int) - 1 - radius) := by
  unfold subIdx mirror
  split_ifs <;> omega

theorem winSum_succ (s : Nat → Nat) (len radius x : Nat) :
    winSum s len radius (x+1) = winSum s len radius x
      + (s (mirror len ((x:Int) + 1 + radius)) : Int)
      - (s (mirror len ((x:Int) - radius)) : Int) := by
  unfold winSum
  have hshift : ∀ j ∈ Finset.range (2*radius+1),
      (s (mirror len (((x+1 : Nat):Int) - radius + j)) : Int)
        = (s (mirror len ((x:Int) - radius + (j+1 : Nat))) : Int) := by
    intro j _
    have harg : ((x+1 : Nat):Int) - radius + j = (x:Int) - radius + ((j+1 : Nat) : Int) := by
      push_cast
      ring
    rw [harg]
  rw [Finset.sum_congr rfl hshift]
  have hs1 := Finset.sum_range_succ'
    (fun j => (s (mirror len ((x:Int) - radius + j)) : Int)) (2*radius+1)
  have hs2 := Finset.sum_range_succ
    (fun j => (s (mirror len ((x:Int) - radius + j)) : Int)) (2*radius+1)
  have harg1 : (x:Int) - radius + ((2*radius+1 : Nat) : Int) = (x:Int) + 1 + radius := by
    push_cast
    ring
  have harg0 : (x:Int) - radius + ((0 : Nat) : Int) = (x:Int) - radius := by
    push_cast
    ring
  rw [harg1] at hs2
  rw [harg0] at hs1
  omega

theorem winSum_zero (s : Nat → Nat) (len radius : Nat) (h2r : 2*radius < len) :
    winSum s len radius 0 = dsum s radius + (s radius : Int) := by
  unfold winSum
  rw [show 2*radius+1 = radius + (radius+1) by omega]
  rw [Finset.sum_range_add
    (fun j => (s (mirror len (((0 : Nat):Int) - radius + j)) : Int)) radius (radius+1)]
  have hleft : ∀ j ∈ Finset.range radius,
      (s (mirror len (((0 : Nat):Int) - radius + j)) : Int)
        = (s (radius - 1 - j) : Int) := by
    intro j hj
    have hj' := Finset.mem_range.mp hj
    have harg : mirror len (((0 : Nat):Int) - radius + j) = radius - 1 - j := by
      unfold mirror
      split_ifs <;> omega
    rw [harg]
  have hright : ∀ j ∈ Finset.range (radius+1),
      (s (mirror len (((0 : Nat):Int) - radius + ((radius + j : Nat) : Int))) : Int)
        = (s j : Int) := by
    intro j hj
    have hj' := Finset.mem_range.mp hj
    have harg : mirror len (((0 : Nat):Int) - radius + ((radius + j : Nat) : Int)) = j := by
      unfold mirror
      split_ifs <;> omega
    rw [harg]
  rw [Finset.sum_congr rfl hleft, Finset.sum_congr rfl hright]
  rw [Finset.sum_range_reflect (fun k => (s k : Int)) radius]
  rw [Finset.sum_range_succ (fun k => (s k : Int)) radius]
  rw [dsum_eq]
  rw [Finset.sum_congr rfl (fun k _ => two_mul ((s k : Int)))]
  rw [Finset.sum_add_distrib]
  ring

/-- The sliding accumulator at output position `x` equals the sum of the
`2*radius+1` boundary-reflected source samples centered on `x`. -/
theorem sumAt_eq_winSum (s : Nat → Nat) (len radius : Nat) (h2r : 2*radius < len) :
    ∀ x, x < len → sumAt s len radius x = winSum s len radius x := by
  intro x
  induction x with
  | zero =>
    intro hx
    rw [winSum_zero s len radius h2r]
    unfold sumAt
    show dsum s radius + (s radius : Int)
        + (s (addIdx len radius 0) : Int) - (s (subIdx radius 0) : Int) = _
    rw [addIdx_left len radius 0 (by omega), subIdx_left radius 0 (by omega)]
    simp
  | succ n ih =>
    intro hx
    rw [sumAt_succ, ih (by omega), winSum_succ]
    rw [addIdx_eq_mirror len radius (n+1) h2r hx, subIdx_eq_mirror len radius (n+1) h2r hx]
    have e1 : ((n+1 : Nat):Int) + radius = (n:Int) + 1 + radius := by push_cast; ring
    have e2 : ((n+1 : Nat):Int) - 1 - radius = (n:Int) - radius := by push_cast; ring
    rw [e1, e2]

theorem winSum_const (v len radius x : Nat) :
    winSum (fun _ => v) len radius x = (2*radius+1 : Int) * v := by
  unfold winSum
  rw [Finset.sum_const, Finset.card_range, nsmul_eq_mul]
  push_cast
  ring

theorem winSum_nonneg (s : Nat → Nat) (len radius x : Nat) :
    0 ≤ winSum s len radius x :=
  Finset.sum_nonneg (fun j _ => Int.natCast_nonneg _)

theorem winSum_le (s : Nat → Nat) (len radius x : Nat) (hb : ∀ i, s i ≤ 255) :
    winSum s len radius x ≤ (2*radius+1 : Int) * 255 := by
  unfold winSum
  calc ∑ j ∈ Finset.range (2*radius+1), (s (mirror len ((x : Int) - radius + j)) : Int)
      ≤ ∑ _j ∈ Finset.range (2*radius+1), (255 : Int) :=
        Finset.sum_le_sum (fun j _ => by exact_mod_cast hb _)
    _ = (2*radius+1 : Int) * 255 := by
        rw [Finset.sum_const, Finset.card_range, nsmul_eq_mul]
        push_cast
        ring

/-! ### Fixed-point normalization arithmetic -/

theorem fdiv65536_eq (a q : Int) (h1 : 65536*q ≤ a) (h2 : a < 65536*(q+1)) :
    a.fdiv 65536 = q := by
  rw [Int.fdiv_eq_ediv _ (by norm_num)]
  omega

theorem invRad_eq (radius : Nat) : invRad radius = (((65536 + radius) / (2*radius+1) : Nat) : Int) := by
  have h : 65536 + (2*radius+1) / 2 = 65536 + radius := by omega
  unfold invRad
  rw [h]

theorem mul_invRad_le (radius : Nat) : (2*radius+1 : Int) * invRad radius ≤ 65536 + radius := by
  rw [invRad_eq]
  have h : (2*radius+1) * ((65536 + radius) / (2*radius+1)) ≤ 65536 + radius := by
    rw [Nat.mul_comm]
    exact Nat.div_mul_le_self _ _
  exact_mod_cast h

theorem invRad_nonneg (radius : Nat) : 0 ≤ invRad radius := by
  rw [invRad_eq]
  exact Int.natCast_nonneg _

/-! ### Claim C10: range of the normalized values -/

set_option maxRecDepth 4000 in
/-- For every radius up to 176, the fixed-point product `length * inv` stays
within 128 of `2^16`, which keeps the normalization of any byte-valued window
inside `[0,255]`.  Radius 177 is the first to break the bound. -/
theorem invRad_prod_le : ∀ radius, radius ≤ 176 →
    (2*radius+1) * ((65536 + radius) / (2*radius+1)) ≤ 65664 := by decide

/-- C10 (amended): for every source run with samples in `[0,255]` and every
radius with `2*radius+1 ≤ len` and `radius ≤ 176`, every value computed by the
fixed-point normalization `(sum*inv + (1<<15)) >> 16` in `blur` lies in
`[0,255]`, so storing it into the 8-bit destination sample never truncates.
The original claim, without the radius bound, is refuted by
`c10_normalization_overflows`. -/
theorem c10_normalization_in_range (s : Nat → Nat) (len radius x : Nat)
    (h2r : 2*radius < len) (hrad : radius ≤ 176) (hx : x < len)
    (hb : ∀ i, s i ≤ 255) :
    0 ≤ blurVal s len radius x ∧ blurVal s len radius x ≤ 255 := by
  have hwin := sumAt_eq_winSum s len radius h2r x hx
  have h0 := winSum_nonneg s len radius x
  have h255 := winSum_le s len radius x hb
  have hiv0 := invRad_nonneg radius
  have hP : (2*radius+1 : Int) * invRad radius ≤ 65664 := by
    rw [invRad_eq]
    exact_mod_cast invRad_prod_le radius hrad
  unfold blurVal outv
  rw [hwin, Int.fdiv_eq_ediv _ (by norm_num)]
  have hprod0 : 0 ≤ winSum s len radius x * invRad radius :=
    mul_nonneg h0 hiv0
  have hprod1 : winSum s len radius x * invRad radius ≤ 65664 * 255 := by
    calc winSum s len radius x * invRad radius
        ≤ ((2*radius+1 : Int) * 255) * invRad radius :=
          mul_le_mul_of_nonneg_right h255 hiv0
      _ = ((2*radius+1 : Int) * invRad radius) * 255 := by ring
      _ ≤ 65664 * 255 := by
          exact mul_le_mul_of_nonneg_right hP (by norm_num)
  constructor <;> omega

/-- C10 counterexample: at radius 177 (window 355) on the constant-255 run of
length 355, the normalized value is 256, outside `[0,255]`; the stored byte
truncates to 0. -/
theorem c10_normalization_overflows :
    blurVal (fun _ => 255) 355 177 177 = 256 ∧
    ¬ (blurVal (fun _ => 255) 355 177 177 ≤ 255) := by
  have h : blurVal (fun _ => 255) 355 177 177
      = ((2*177+1 : Int) * 255 * invRad 177 + 32768).fdiv 65536 := by
    unfold blurVal outv
    rw [sumAt_eq_winSum _ _ _ (by norm_num) 177 (by norm_num), winSum_const]
    norm_num
  have hiv : invRad 177 = 185 := by rw [invRad_eq]; norm_num
  rw [h, hiv]
  norm_num
  rw [fdiv65536_eq 16779893 256 (by norm_num) (by norm_num)]
  norm_num

theorem c10_normalization_in_range_witness :
    0 ≤ blurVal (fun _ => 200) 5 2 2 ∧ blurVal (fun _ => 200) 5 2 2 ≤ 255 :=
  c10_normalization_in_range (fun _ => 200) 5 2 2 (by decide) (by decide) (by decide)
    (fun _ => by show (200:Nat) ≤ 255; decide)

/-! ### Extensionality of the pure blur in its source run -/

theorem dsum_congr (s₁ s₂ : Nat → Nat) :
    ∀ r, (∀ i, i < r → s₁ i = s₂ i) → dsum s₁ r = dsum s₂ r := by
  intro r
  induction r with
  | zero => intro _; rfl
  | succ n ih =>
    intro h
    show dsum s₁ n + 2*(s₁ n : Int) = dsum s₂ n + 2*(s₂ n : Int)
    rw [ih (fun i hi => h i (by omega)), h n (by omega)]

theorem addIdx_lt (len radius x : Nat) (hrl : radius < len) (hx : x < len) :
    addIdx len radius x < readBound len radius := by
  have h1 : len ≤ readBound len radius := le_max_left _ _
  have h2 : 2*radius+1 ≤ readBound len radius := le_max_right _ _
  unfold addIdx
  split_ifs with h
  · rcases h with h | h <;> omega
  · omega

theorem subIdx_lt (len radius x : Nat) (hrl : radius < len) (hx : x < len) :
    subIdx radius x < readBound len radius := by
  have h1 : len ≤ readBound len radius := le_max_left _ _
  unfold subIdx
  split_ifs <;> omega

/-- The pure blur value at any output position depends only on the source
samples below `readBound len radius`. -/
theorem blurVal_ext (s₁ s₂ : Nat → Nat) (len radius : Nat) (hrl : radius < len)
    (h : ∀ i, i < readBound len radius → s₁ i = s₂ i) :
    ∀ x, x < len → blurVal s₁ len radius x = blurVal s₂ len radius x := by
  intro x hx
  have h2 : 2*radius+1 ≤ readBound len radius := le_max_right _ _
  unfold blurVal sumAt
  rw [dsum_congr s₁ s₂ radius (fun i hi => h i (by omega)), h radius (by omega)]
  rw [pureSum_congr s₁ s₂ (addIdx len radius) (subIdx radius) (addIdx len radius)
    (subIdx radius) (x+1) _ 0 (fun k hk =>
      ⟨h _ (addIdx_lt len radius (0+k) hrl (by omega)),
       h _ (subIdx_lt len radius (0+k) hrl (by omega))⟩)]

/-! ### Claim C8: constant runs stay constant within rounding -/

theorem blurVal_const (v len radius x : Nat) (h2r : 2*radius < len) (hx : x < len) :
    blurVal (fun _ => v) len radius x
      = ((2*radius+1 : Int) * v * invRad radius + 32768).fdiv 65536 := by
  unfold blurVal outv
  rw [sumAt_eq_winSum _ _ _ h2r x hx, winSum_const]

set_option maxRecDepth 4000 in
/-- Every radius up to 152 satisfies the stability condition; radius 153 is
the first to break it. -/
theorem stableRad_all : ∀ radius, radius ≤ 152 → stableRad radius := by decide

/-- Under the stability condition, one blur pass maps the constant byte `v` to
a value between `v-1` and `v`. -/
theorem gstep_bounds (radius v : Nat) (hst : stableRad radius) (hv : v ≤ 255) :
    (v:Int) - 1 ≤ ((2*radius+1 : Int) * v * invRad radius + 32768).fdiv 65536 ∧
    ((2*radius+1 : Int) * v * invRad radius + 32768).fdiv 65536 ≤ v := by
  obtain ⟨h1, h2⟩ := hst
  have hP1 : (65407 : Int) ≤ (2*radius+1 : Int) * invRad radius := by
    rw [invRad_eq]
    exact_mod_cast h1
  have hP2 : (2*radius+1 : Int) * invRad radius ≤ 65664 := by
    rw [invRad_eq]
    exact_mod_cast h2
  have hv' : (v : Int) ≤ 255 := by exact_mod_cast hv
  have hv0 : (0 : Int) ≤ v := Int.natCast_nonneg _
  have hA : (2*radius+1 : Int) * v * invRad radius
      = (v:Int) * ((2*radius+1 : Int) * invRad radius) := by ring
  rw [hA]
  have hup : (v:Int) * ((2*radius+1 : Int) * invRad radius) ≤ (v:Int) * 65664 :=
    mul_le_mul_of_nonneg_left hP2 hv0
  have hlo : (v:Int) * 65407 ≤ (v:Int) * ((2*radius+1 : Int) * invRad radius) :=
    mul_le_mul_of_nonneg_left hP1 hv0
  rw [Int.fdiv_eq_ediv _ (by norm_num)]
  constructor <;> omega

/-- Under the stability condition, one blur pass maps any constant byte up to
254 to itself exactly. -/
theorem gstep_fix (radius v : Nat) (hst : stableRad radius) (hv : v ≤ 254) :
    ((2*radius+1 : Int) * v * invRad radius + 32768).fdiv 65536 = v := by
  obtain ⟨h1, h2⟩ := hst
  have hP1 : (65407 : Int) ≤ (2*radius+1 : Int) * invRad radius := by
    rw [invRad_eq]
    exact_mod_cast h1
  have hP2 : (2*radius+1 : Int) * invRad radius ≤ 65664 := by
    rw [invRad_eq]
    exact_mod_cast h2
  have hv' : (v : Int) ≤ 254 := by exact_mod_cast hv
  have hv0 : (0 : Int) ≤ v := Int.natCast_nonneg _
  have hA : (2*radius+1 : Int) * v * invRad radius
      = (v:Int) * ((2*radius+1 : Int) * invRad radius) := by ring
  rw [hA]
  have hup : (v:Int) * ((2*radius+1 : Int) * invRad radius) ≤ (v:Int) * 65664 :=
    mul_le_mul_of_nonneg_left hP2 hv0
  have hlo : (v:Int) * 65407 ≤ (v:Int) * ((2*radius+1 : Int) * invRad radius) :=
    mul_le_mul_of_nonneg_left hP1 hv0
  rw [Int.fdiv_eq_ediv _ (by norm_num)]
  omega

/-- Iterating the pure blur on a constant run keeps it, on the run, constant
at either `v` or `v-1` (stability). -/
theorem iterBlur_const_close (len radius : Nat) (h2r : 2*radius < len)
    (hst : stableRad radius) :
    ∀ p v, v ≤ 255 →
      ∃ w, w ≤ 255 ∧ (w = v ∨ w + 1 = v) ∧
        ∀ x, x < len → iterBlur len radius p (fun _ => v) x = w := by
  intro p
  induction p with
  | zero => intro v hv; exact ⟨v, hv, Or.inl rfl, fun x _ => rfl⟩
  | succ n ih =>
    intro v hv
    obtain ⟨w, hw255, hw, hcw⟩ := ih v hv
    have hRB := readBound_eq len radius h2r
    have hext : ∀ x, x < len →
        blurVal (iterBlur len radius n (fun _ => v)) len radius x
          = blurVal (fun _ => w) len radius x := by
      intro x hx
      exact blurVal_ext _ _ len radius (by omega) (fun i hi => hcw i (hRB ▸ hi)) x hx
    by_cases hw254 : w ≤ 254
    · refine ⟨w, hw255, hw, fun x hx => ?_⟩
      show ((blurVal (iterBlur len radius n (fun _ => v)) len radius x).emod 256).toNat = w
      rw [hext x hx, blurVal_const w len radius x h2r hx, gstep_fix radius w hst hw254,
        emod256_natCast]
      omega
    · have hw' : w = 255 := by omega
      have hwv : w = v := by
        rcases hw with h | h
        · exact h
        · omega
      obtain ⟨hlow, hhigh⟩ := gstep_bounds radius w hst hw255
      have hq0 : ((2*radius+1 : Int) * w * invRad radius + 32768).fdiv 65536 = 255 ∨
          ((2*radius+1 : Int) * w * invRad radius + 32768).fdiv 65536 = 254 := by
        omega
      rcases hq0 with h | h
      · refine ⟨255, by omega, Or.inl (by omega), fun x hx => ?_⟩
        show ((blurVal (iterBlur len radius n (fun _ => v)) len radius x).emod 256).toNat = 255
        rw [hext x hx, blurVal_const w len radius x h2r hx, h]
        decide
      · refine ⟨254, by omega, Or.inr (by omega), fun x hx => ?_⟩
        show ((blurVal (iterBlur len radius n (fun _ => v)) len radius x).emod 256).toNat = 254
        rw [hext x hx, blurVal_const w len radius x h2r hx, h]
        decide

/-- C8 (amended): for every constant-valued source run (samples all `v ≤ 255`),
every power, and every radius with `2*radius < len` and `radius ≤ 152`, every
output sample of `blur_power` equals `v` within plus or minus 1.  The original
claim, quantifying over all validated radii, is refuted by
`c8_const_run_drifts`. -/
theorem c8_blur_power_const_close (m : Mem) (dst ds src ss len radius power t0 t1 v : Nat)
    (hds : 0 < ds) (h2r : 2*radius < len) (hrad : radius ≤ 152) (hv : v ≤ 255)
    (hs : ∀ i, i < len → m (src + i*ss) = v)
    (hnc : ∀ i j, i < j → j < len → dst + i*ds ≠ src + j*ss)
    (hT01 : ∀ i j, i < len → j < len → t0 + i ≠ t1 + j)
    (hT0src : ∀ i j, i < len → j < len → t0 + i ≠ src + j*ss)
    (hT1src : ∀ i j, i < len → j < len → t1 + i ≠ src + j*ss)
    (hdT0 : ∀ i j, i < len → j < len → dst + i*ds ≠ t0 + j)
    (hdT1 : ∀ i j, i < len → j < len → dst + i*ds ≠ t1 + j) :
    ∀ i, i < len →
      v - 1 ≤ blur_power m dst ds src ss len radius power t0 t1 (dst + i*ds) ∧
      blur_power m dst ds src ss len radius power t0 t1 (dst + i*ds) ≤ v + 1 := by
  intro i hi
  by_cases hz : radius ≠ 0 ∧ power ≠ 0
  · have hval := (blur_power_spec m dst ds src ss len radius power t0 t1 (fun _ => v)
      hds h2r hz.1 hz.2 hs hT01 hT0src hT1src hdT0 hdT1).1 i hi
    obtain ⟨w, hw255, hw, hcw⟩ :=
      iterBlur_const_close len radius h2r (stableRad_all radius hrad) power v hv
    rw [hval, hcw i hi]
    omega
  · unfold blur_power
    rw [if_neg hz]
    have hcopy := copyLoop_spec dst ds src ss hds len 0 m
      (fun k j hkj hj => by simpa using hnc k j hkj hj) i hi
    simp only [Nat.zero_add] at hcopy
    rw [hcopy, hs i hi, Nat.mod_eq_of_lt (by omega)]
    omega

set_option maxRecDepth 40000 in
/-- C8 counterexample: at radius 153 (the first unstable radius), length 307,
power 2, the constant run 227 blurs to the constant 225, two grey levels away
from the source value. -/
theorem c8_const_run_drifts :
    blur_power (fun _ => 227) 10000 1 0 1 307 153 2 20000 30000 (10000 + 0*1) = 225 ∧
    ¬ (227 - 1 ≤ 225 ∧ (225:Nat) ≤ 227 + 1) := by
  constructor
  · have h := (blur_power_spec (fun _ => 227) 10000 1 0 1 307 153 2 20000 30000
      (fun _ => 227) (by decide) (by decide) (by decide) (by decide)
      (fun i _ => rfl)
      (fun i j hi hj => by omega) (fun i j hi hj => by omega) (fun i j hi hj => by omega)
      (fun i j hi hj => by omega) (fun i j hi hj => by omega)).1 0 (by decide)
    rw [h]
    decide
  · decide

/-! ### Claim C4: boundary exactness at the smallest legal run -/

set_option maxRecDepth 4000 in
/-- Every radius up to 10 satisfies the corner conditions; radius 11 is the
first to break them (and the first with an inexact window). -/
theorem cornerOK_all : ∀ radius, radius ≤ 10 → cornerOK radius := by decide

/-- Under the corner conditions the fixed-point normalization reproduces the
exact rounded average for every window sum `S ≤ 255 * length` of byte
samples. -/
theorem corner_exact (radius : Nat) (hc : cornerOK radius) :
    ∀ S : Nat, S ≤ 255*(2*radius+1) →
      ((S : Int) * invRad radius + 32768).fdiv 65536
        = (((S + radius) / (2*radius+1) : Nat) : Int) := by
  simp only [cornerOK, inf_eq_min, sup_eq_max] at hc
  rw [← invRad_eq radius] at hc
  obtain ⟨hc1, hc2, hc3, hc4, hc5⟩ := hc
  intro S hS
  have hL0 : 0 < 2*radius+1 := by omega
  have hmod : (2*radius+1) * (S / (2*radius+1)) + S % (2*radius+1) = S :=
    Nat.div_add_mod S (2*radius+1)
  have hsL : S % (2*radius+1) < 2*radius+1 := Nat.mod_lt _ hL0
  have hq255 : S / (2*radius+1) ≤ 255 := by
    have h1 : S / (2*radius+1) ≤ 255*(2*radius+1) / (2*radius+1) :=
      Nat.div_le_div_right hS
    rwa [Nat.mul_div_cancel _ hL0] at h1
  have hcoup : S / (2*radius+1) = 255 → S % (2*radius+1) = 0 := by
    intro h255
    rw [h255] at hmod
    omega
  -- fixed-point product identity
  have hNat : (2*radius+1) * ((65536 + radius) / (2*radius+1))
      + (65536 + radius) % (2*radius+1) = 65536 + radius :=
    Nat.div_add_mod _ _
  have hInt : (2*radius+1 : Int) * invRad radius
      + (((65536 + radius) % (2*radius+1) : Nat) : Int) = 65536 + (radius : Int) := by
    rw [invRad_eq]
    exact_mod_cast hNat
  have hS' : (S : Int) = (2*radius+1 : Int) * (S / (2*radius+1) : Nat)
      + ((S % (2*radius+1) : Nat) : Int) := by exact_mod_cast hmod.symm
  have hSplit : (S : Int) * invRad radius + 32768
      = 65536 * ((S / (2*radius+1) : Nat) : Int)
        + (((S / (2*radius+1) : Nat) : Int)
            * ((radius : Int) - (((65536 + radius) % (2*radius+1) : Nat) : Int))
          + ((S % (2*radius+1) : Nat) : Int) * invRad radius + 32768) := by
    rw [hS']
    have hprod : (2*radius+1 : Int) * invRad radius
        = 65536 + (radius : Int) - (((65536 + radius) % (2*radius+1) : Nat) : Int) := by
      omega
    calc ((2*radius+1 : Int) * (S / (2*radius+1) : Nat)
          + ((S % (2*radius+1) : Nat) : Int)) * invRad radius + 32768
        = ((S / (2*radius+1) : Nat) : Int) * ((2*radius+1 : Int) * invRad radius)
          + ((S % (2*radius+1) : Nat) : Int) * invRad radius + 32768 := by ring
      _ = _ := by rw [hprod]; ring
  -- bounds on the product with the slack term
  have hq0 : (0:Int) ≤ ((S / (2*radius+1) : Nat) : Int) := Int.natCast_nonneg _
  have hqI : ((S / (2*radius+1) : Nat) : Int) ≤ 255 := by exact_mod_cast hq255
  have hiv0 := invRad_nonneg radius
  rcases Nat.lt_or_ge (S / (2*radius+1)) 255 with hqlt | hqge
  · -- q ≤ 254
    have hq254 : ((S / (2*radius+1) : Nat) : Int) ≤ 254 := by exact_mod_cast (by omega : S / (2*radius+1) ≤ 254)
    have hup : ((S / (2*radius+1) : Nat) : Int)
        * ((radius : Int) - (((65536 + radius) % (2*radius+1) : Nat) : Int))
        ≤ 254 * max ((radius : Int) - (((65536 + radius) % (2*radius+1) : Nat) : Int)) 0 := by
      rcases le_or_lt 0 ((radius : Int) - (((65536 + radius) % (2*radius+1) : Nat) : Int))
        with hA | hA
      · have h1 : ((S / (2*radius+1) : Nat) : Int)
            * ((radius : Int) - (((65536 + radius) % (2*radius+1) : Nat) : Int))
            ≤ 254 * ((radius : Int) - (((65536 + radius) % (2*radius+1) : Nat) : Int)) :=
          mul_le_mul_of_nonneg_right hq254 hA
        have h2 := le_max_left ((radius : Int) - (((65536 + radius) % (2*radius+1) : Nat) : Int)) (0:Int)
        omega
      · have h1 : ((S / (2*radius+1) : Nat) : Int)
            * ((radius : Int) - (((65536 + radius) % (2*radius+1) : Nat) : Int)) ≤ 0 :=
          mul_nonpos_iff.mpr (Or.inl ⟨hq0, le_of_lt hA⟩)
        have h2 : max ((radius : Int) - (((65536 + radius) % (2*radius+1) : Nat) : Int)) (0:Int) = 0 :=
          max_eq_right (le_of_lt hA)
        omega
    have hdn : 254 * min ((radius : Int) - (((65536 + radius) % (2*radius+1) : Nat) : Int)) 0
        ≤ ((S / (2*radius+1) : Nat) : Int)
          * ((radius : Int) - (((65536 + radius) % (2*radius+1) : Nat) : Int)) := by
      rcases le_or_lt 0 ((radius : Int) - (((65536 + radius) % (2*radius+1) : Nat) : Int))
        with hA | hA
      · have h1 : (0:Int) ≤ ((S / (2*radius+1) : Nat) : Int)
            * ((radius : Int) - (((65536 + radius) % (2*radius+1) : Nat) : Int)) :=
          mul_nonneg hq0 hA
        have h2 : min ((radius : Int) - (((65536 + radius) % (2*radius+1) : Nat) : Int)) (0:Int) = 0 :=
          min_eq_right hA
        omega
      · have h1 : 254 * ((radius : Int) - (((65536 + radius) % (2*radius+1) : Nat) : Int))
            ≤ ((S / (2*radius+1) : Nat) : Int)
              * ((radius : Int) - (((65536 + radius) % (2*radius+1) : Nat) : Int)) :=
          mul_le_mul_of_nonpos_right hq254 (le_of_lt hA)
        have h2 := min_eq_left (le_of_lt hA)
        have h3 := h2 ▸ (rfl : min ((radius : Int) - (((65536 + radius) % (2*radius+1) : Nat) : Int)) (0:Int) = min ((radius : Int) - (((65536 + radius) % (2*radius+1) : Nat) : Int)) (0:Int))
        omega
    rcases Nat.lt_or_ge radius (S % (2*radius+1)) with hsr | hsr
    · -- s ≥ radius + 1: the window crosses the rounding boundary
      have hr1 : 1 ≤ radius := by omega
      have hc5' := hc5.resolve_left (by omega)
      obtain ⟨hc5a, hc5b⟩ := hc5'
      have hs1 : ((radius : Int) + 1) * invRad radius
          ≤ ((S % (2*radius+1) : Nat) : Int) * invRad radius :=
        mul_le_mul_of_nonneg_right (by exact_mod_cast (by omega : radius + 1 ≤ S % (2*radius+1))) hiv0
      have hs2 : ((S % (2*radius+1) : Nat) : Int) * invRad radius
          ≤ (2 * (radius : Int)) * invRad radius :=
        mul_le_mul_of_nonneg_right (by exact_mod_cast (by omega : S % (2*radius+1) ≤ 2*radius)) hiv0
      rw [hSplit]
      rw [fdiv65536_eq _ (((S / (2*radius+1) : Nat) : Int) + 1) (by omega) (by omega)]
      have hNdiv : (S + radius) / (2*radius+1) = S / (2*radius+1) + 1 := by
        have hLq1 : (2*radius+1)*(S / (2*radius+1) + 1)
            = (2*radius+1)*(S / (2*radius+1)) + (2*radius+1) := by ring
        have heq : S + radius = (S % (2*radius+1) + radius - (2*radius+1))
            + (2*radius+1)*(S / (2*radius+1) + 1) := by omega
        rw [heq, Nat.add_mul_div_left _ _ hL0,
          Nat.div_eq_of_lt (by omega), Nat.zero_add]
      rw [hNdiv]
      push_cast
      ring
    · -- s ≤ radius: the window stays below the rounding boundary
      have hs0 : (0:Int) ≤ ((S % (2*radius+1) : Nat) : Int) * invRad radius :=
        mul_nonneg (Int.natCast_nonneg _) hiv0
      have hs1 : ((S % (2*radius+1) : Nat) : Int) * invRad radius
          ≤ (radius : Int) * invRad radius :=
        mul_le_mul_of_nonneg_right (by exact_mod_cast hsr) hiv0
      rw [hSplit]
      rw [fdiv65536_eq _ ((S / (2*radius+1) : Nat) : Int) (by omega) (by omega)]
      have hNdiv : (S + radius) / (2*radius+1) = S / (2*radius+1) := by
        have heq : S + radius = (S % (2*radius+1) + radius)
            + (2*radius+1)*(S / (2*radius+1)) := by omega
        rw [heq, Nat.add_mul_div_left _ _ hL0,
          Nat.div_eq_of_lt (by omega), Nat.zero_add]
      rw [hNdiv]
  · -- q = 255, hence s = 0
    have hq' : S / (2*radius+1) = 255 := by omega
    have hs' : S % (2*radius+1) = 0 := hcoup hq'
    rw [hSplit, hq', hs']
    have hz : ((0 : Nat) : Int) * invRad radius = 0 := by norm_num
    rw [hz]
    rw [fdiv65536_eq _ ((255 : Nat) : Int) (by omega) (by omega)]
    have hNdiv : (S + radius) / (2*radius+1) = 255 := by
      have heq : S + radius = (0 + radius) + (2*radius+1)*255 := by
        have := hmod
        rw [hq', hs'] at this
        omega
      rw [heq, Nat.add_mul_div_left _ _ hL0,
        Nat.div_eq_of_lt (by omega), Nat.zero_add]
    rw [hNdiv]

/-- The accumulator at the center of the smallest legal run (`len = 2r+1`,
output position `radius`) is the plain sum of all samples: no reflection. -/
theorem sumAt_center (s : Nat → Nat) (radius : Nat) :
    sumAt s (2*radius+1) radius radius = ∑ j ∈ Finset.range (2*radius+1), (s j : Int) := by
  rw [sumAt_eq_winSum s (2*radius+1) radius (by omega) radius (by omega)]
  unfold winSum
  refine Finset.sum_congr rfl (fun j hj => ?_)
  have hj' := Finset.mem_range.mp hj
  have harg : mirror (2*radius+1) ((radius:Int) - radius + j) = j := by
    unfold mirror
    split_ifs <;> omega
  rw [harg]

/-- C4 (amended): for `1 ≤ radius ≤ 10` and a source run of length exactly
`2*radius+1` with byte samples, the single full-window output sample (at the
center position `radius`) equals the exact rounded average of all samples.
The original claim, for every radius, is refuted by
`c4_center_not_average`. -/
theorem c4_blur_center_average (m : Mem) (dst ds src ss radius : Nat)
    (hds : 0 < ds) (hr1 : 1 ≤ radius) (hr10 : radius ≤ 10)
    (hb : ∀ i, i < 2*radius+1 → m (src + i*ss) ≤ 255)
    (hdisj : ∀ i j, i < 2*radius+1 → j < 2*radius+1 → dst + i*ds ≠ src + j*ss) :
    blur m dst ds src ss (2*radius+1) radius (dst + radius*ds)
      = ((∑ i ∈ Finset.range (2*radius+1), m (src + i*ss)) + radius) / (2*radius+1) := by
  have h2r : 2*radius < 2*radius+1 := by omega
  have hRB := readBound_eq (2*radius+1) radius h2r
  have hspec := blur_spec m dst ds src ss (2*radius+1) radius (fun i => m (src + i*ss))
    hds (by omega) (fun i _ => rfl) (fun i j hi hj => hdisj i j hi (hRB ▸ hj))
    radius (by omega)
  rw [hspec]
  have hS : ∑ j ∈ Finset.range (2*radius+1), ((fun i => m (src + i*ss)) j : Int)
      = ((∑ i ∈ Finset.range (2*radius+1), m (src + i*ss) : Nat) : Int) := by
    push_cast
    rfl
  have hSle : (∑ i ∈ Finset.range (2*radius+1), m (src + i*ss)) ≤ 255*(2*radius+1) := by
    calc ∑ i ∈ Finset.range (2*radius+1), m (src + i*ss)
        ≤ ∑ _i ∈ Finset.range (2*radius+1), 255 :=
          Finset.sum_le_sum (fun i hi => hb i (Finset.mem_range.mp hi))
      _ = 255*(2*radius+1) := by
          rw [Finset.sum_const, Finset.card_range, smul_eq_mul]
          ring
  have hval : blurVal (fun i => m (src + i*ss)) (2*radius+1) radius radius
      = ((((∑ i ∈ Finset.range (2*radius+1), m (src + i*ss)) + radius)
          / (2*radius+1) : Nat) : Int) := by
    unfold blurVal outv
    rw [sumAt_center, hS]
    exact corner_exact radius (cornerOK_all radius hr10) _ hSle
  rw [hval, emod256_natCast]
  have hlt : ((∑ i ∈ Finset.range (2*radius+1), m (src + i*ss)) + radius)
      / (2*radius+1) < 256 := by
    rw [Nat.div_lt_iff_lt_mul (by omega)]
    omega
  exact Nat.mod_eq_of_lt hlt

/-- C4 counterexample: at radius 11 (run length 23) the run of fourteen 255
samples, one 76 sample and eight 0 samples (sum 3646) has exact rounded
average 159, but the blur writes 158 at the center. -/
theorem c4_center_not_average :
    blur (fun a => if a < 14 then 255 else if a = 14 then 76 else 0) 100 1 0 1 23 11
        (100 + 11*1) = 158 ∧
    ((∑ i ∈ Finset.range 23,
        (fun a => if a < 14 then 255 else if a = 14 then 76 else 0) (0 + i*1)) + 11) / 23
      = 159 := by
  constructor <;> decide

theorem c4_blur_center_average_witness :
    blur (fun a => [10, 20, 30].getD a 0) 400 1 0 1 (2*1+1) 1 (400 + 1*1)
      = ((∑ i ∈ Finset.range (2*1+1), (fun a => [10, 20, 30].getD a 0) (0 + i*1)) + 1)
          / (2*1+1) :=
  c4_blur_center_average (fun a => [10, 20, 30].getD a 0) 400 1 0 1 1
    (by decide) (by decide) (by decide) (by decide) (fun i j hi hj => by omega)

/-! ### Claim C9: the blur commutes with horizontal mirroring -/

theorem mirror_reflect (len : Nat) (i : Int) (h0 : -(len:Int) ≤ i) (h1 : i < 2*(len:Int)) :
    mirror len ((len:Int) - 1 - i) = len - 1 - mirror len i := by
  unfold mirror
  split_ifs <;> omega

/-- Reflecting the source run reflects the window sums. -/
theorem winSum_reflect (s : Nat → Nat) (len radius x : Nat)
    (h2r : 2*radius < len) (hx : x < len) :
    winSum (fun i => s (len - 1 - i)) len radius x = winSum s len radius (len - 1 - x) := by
  unfold winSum
  rw [← Finset.sum_range_reflect
    (fun j => (s (mirror len (((len - 1 - x : Nat) : Int) - radius + j)) : Int)) (2*radius+1)]
  refine Finset.sum_congr rfl (fun j hj => ?_)
  have hj' := Finset.mem_range.mp hj
  have hm := mirror_reflect len ((x:Int) - radius + j) (by omega) (by omega)
  have harg : ((len - 1 - x : Nat) : Int) - radius + ((2*radius+1-1-j : Nat) : Int)
      = (len:Int) - 1 - ((x:Int) - radius + j) := by omega
  rw [harg, hm]

/-- Reflecting the source run reflects a single pure blur pass. -/
theorem blurVal_reflect (s : Nat → Nat) (len radius x : Nat)
    (h2r : 2*radius < len) (hx : x < len) :
    blurVal (fun i => s (len - 1 - i)) len radius x = blurVal s len radius (len - 1 - x) := by
  unfold blurVal
  rw [sumAt_eq_winSum _ _ _ h2r x hx, sumAt_eq_winSum _ _ _ h2r (len - 1 - x) (by omega),
    winSum_reflect s len radius x h2r hx]

/-- Reflecting the source run reflects the p-fold blur. -/
theorem iterBlur_reflect (s : Nat → Nat) (len radius : Nat) (h2r : 2*radius < len) :
    ∀ p x, x < len → iterBlur len radius p (fun i => s (len - 1 - i)) x
        = iterBlur len radius p s (len - 1 - x) := by
  intro p
  induction p with
  | zero => intro x hx; rfl
  | succ n ih =>
    intro x hx
    show ((blurVal (iterBlur len radius n (fun i => s (len - 1 - i))) len radius x).emod
        256).toNat = _
    have hRB := readBound_eq len radius h2r
    rw [blurVal_ext (iterBlur len radius n (fun i => s (len - 1 - i)))
        (fun i => iterBlur len radius n s (len - 1 - i)) len radius (by omega)
        (fun i hi => ih i (hRB ▸ hi)) x hx]
    rw [blurVal_reflect (iterBlur len radius n s) len radius x h2r hx]
    rfl

/-- C9 (amended): under the 1-D contract `2*radius < len`, blurring the
horizontal mirror of a source run and mirroring the result back yields the
same output run as blurring the original run directly, for every power: the
leading-edge and trailing-edge boundary treatments are mirror images.  At the
validated boundary `2*radius = len` the property fails,
see `c9_mirror_fails_at_boundary`. -/
theorem c9_blur_power_mirror (m mr : Mem) (dst ds src ss len radius power t0 t1 : Nat)
    (s : Nat → Nat)
    (hds : 0 < ds) (h2r : 2*radius < len) (hr : 1 ≤ radius) (hp : 1 ≤ power)
    (hs : ∀ i, i < len → m (src + i*ss) = s i)
    (hsr : ∀ i, i < len → mr (src + i*ss) = s (len - 1 - i))
    (hT01 : ∀ i j, i < len → j < len → t0 + i ≠ t1 + j)
    (hT0src : ∀ i j, i < len → j < len → t0 + i ≠ src + j*ss)
    (hT1src : ∀ i j, i < len → j < len → t1 + i ≠ src + j*ss)
    (hdT0 : ∀ i j, i < len → j < len → dst + i*ds ≠ t0 + j)
    (hdT1 : ∀ i j, i < len → j < len → dst + i*ds ≠ t1 + j) :
    ∀ x, x < len →
      blur_power mr dst ds src ss len radius power t0 t1 (dst + (len - 1 - x)*ds)
        = blur_power m dst ds src ss len radius power t0 t1 (dst + x*ds) := by
  intro x hx
  have h1 := (blur_power_spec mr dst ds src ss len radius power t0 t1
    (fun i => s (len - 1 - i)) hds h2r (by omega) (by omega) hsr
    hT01 hT0src hT1src hdT0 hdT1).1 (len - 1 - x) (by omega)
  have h2 := (blur_power_spec m dst ds src ss len radius power t0 t1 s hds h2r
    (by omega) (by omega) hs hT01 hT0src hT1src hdT0 hdT1).1 x hx
  rw [h1, h2, iterBlur_reflect s len radius h2r power (len - 1 - x) (by omega)]
  congr 1
  omega

/-- C9 counterexample: with run length 2 and radius 1 (allowed by the
validation bound `2*radius ≤ min(w,h)` but outside the 1-D contract
`2*radius < len`), blurring the mirror of `[0,255]` gives 170 at the mirrored
position of output 1, while blurring `[0,255]` directly gives 85 there: the
out-of-run read `src[len]` of the left-boundary loop breaks the symmetry. -/
theorem c9_mirror_fails_at_boundary :
    blur_power (fun a => [255, 0].getD a 0) 100 1 0 1 2 1 1 200 300 (100 + 0*1) = 170 ∧
    blur_power (fun a => [0, 255].getD a 0) 100 1 0 1 2 1 1 200 300 (100 + 1*1) = 85 ∧
    (170 : Nat) ≠ 85 := by
  refine ⟨by decide, by decide, by decide⟩

theorem c9_blur_power_mirror_witness :
    blur_power (fun a => [30, 60, 90].getD (a - 1000) 0) 0 1 1000 1 3 1 1 400 500
      (0 + (3 - 1 - 1)*1)
      = blur_power (fun a => [90, 60, 30].getD (a - 1000) 0) 0 1 1000 1 3 1 1 400 500
          (0 + 1*1) :=
  c9_blur_power_mirror (fun a => [90, 60, 30].getD (a - 1000) 0)
    (fun a => [30, 60, 90].getD (a - 1000) 0) 0 1 1000 1 3 1 1 400 500
    (fun i => [90, 60, 30].getD i 0)
    (by decide) (by decide) (by decide) (by decide)
    (fun i hi => by interval_cases i <;> rfl)
    (fun i hi => by interval_cases i <;> rfl)
    (fun i j hi hj => by omega) (fun i j hi hj => by omega) (fun i j hi hj => by omega)
    (fun i j hi hj => by omega) (fun i j hi hj => by omega)
    1 (by decide)

theorem c8_blur_power_const_close_witness :
    100 - 1 ≤ blur_power (fun _ => 100) 500 1 0 1 3 1 3 100 200 (500 + 0*1) ∧
    blur_power (fun _ => 100) 500 1 0 1 3 1 3 100 200 (500 + 0*1) ≤ 100 + 1 :=
  c8_blur_power_const_close (fun _ => 100) 500 1 0 1 3 1 3 100 200 100
    (by decide) (by decide) (by decide) (by decide)
    (fun i _ => rfl)
    (fun i j hij hj => by omega) (fun i j hi hj => by omega) (fun i j hi hj => by omega)
    (fun i j hi hj => by omega) (fun i j hi hj => by omega) (fun i j hi hj => by omega)
    0 (by decide)

/-! ### Claims C5 and C6: the parameter resolver -/

/-- C5: at initialization, an unset chroma (respectively alpha) radius
expression is set to a copy of the luma radius expression, and a negative
(unspecified) chroma (respectively alpha) power is set to the luma power;
consequently, configuring only the luma radius expression resolves the chroma
and alpha radii to the luma expression evaluated in the geometry environment
(hence equal to the luma radius), and the chroma and alpha powers to the luma
power. -/
theorem c5_init_defaults (bb : BoxBlurContext) (e : String)
    (hl : bb.luma_param.radius_expr = some e)
    (hc : bb.chroma_param.radius_expr = none)
    (ha : bb.alpha_param.radius_expr = none)
    (hcp : bb.chroma_param.power < 0)
    (hap : bb.alpha_param.power < 0) :
    ∃ bb2, init bb = Except.ok bb2 ∧
      bb2.chroma_param.radius_expr = some e ∧
      bb2.alpha_param.radius_expr = some e ∧
      bb2.chroma_param.power = bb.luma_param.power ∧
      bb2.alpha_param.power = bb.luma_param.power ∧
      ∀ (eval : String → VarVals → Option Int) (w h hsub vsub : Nat) (res : Resolved),
        config_input eval bb2 w h hsub vsub = Except.ok res →
          eval e (mkVarVals w h hsub vsub) = some res.radiusU ∧
          res.radiusU = res.radiusY ∧
          res.radiusV = res.radiusY ∧
          res.radiusA = res.radiusY ∧
          res.powerU = bb.luma_param.power ∧
          res.powerV = bb.luma_param.power ∧
          res.powerA = bb.luma_param.power := by
  refine ⟨{ bb with chroma_param := { bb.chroma_param with radius_expr := some e, power := bb.luma_param.power }, alpha_param := { bb.alpha_param with radius_expr := some e, power := bb.luma_param.power } }, ?_, rfl, rfl, rfl, rfl, ?_⟩
  · simp [init, hl, hc, ha, hcp, hap]
  · intro eval w h hsub vsub res hres
    rcases heval : eval e (mkVarVals w h hsub vsub) with _ | rl
    · simp only [config_input, hl, Option.some_bind, heval] at hres
      exact (Except.noConfusion hres)
    · simp only [config_input, hl, Option.some_bind, heval] at hres
      split_ifs at hres
      all_goals injection hres with h
      all_goals subst h
      all_goals exact ⟨rfl, rfl, rfl, rfl, rfl, rfl, rfl⟩

theorem c5_init_defaults_witness :
    ∃ bb2,
      init { luma_param := { radius := 0, power := 2, radius_expr := some "2" },
             chroma_param := { radius := 0, power := -1, radius_expr := none },
             alpha_param := { radius := 0, power := -1, radius_expr := none } }
        = Except.ok bb2 ∧
      bb2.chroma_param.radius_expr = some "2" ∧
      bb2.alpha_param.radius_expr = some "2" ∧
      bb2.chroma_param.power = 2 ∧
      bb2.alpha_param.power = 2 ∧
      ∀ (eval : String → VarVals → Option Int) (w h hsub vsub : Nat) (res : Resolved),
        config_input eval bb2 w h hsub vsub = Except.ok res →
          eval "2" (mkVarVals w h hsub vsub) = some res.radiusU ∧
          res.radiusU = res.radiusY ∧
          res.radiusV = res.radiusY ∧
          res.radiusA = res.radiusY ∧
          res.powerU = 2 ∧
          res.powerV = 2 ∧
          res.powerA = 2 :=
  c5_init_defaults
    { luma_param := { radius := 0, power := 2, radius_expr := some "2" },
      chroma_param := { radius := 0, power := -1, radius_expr := none },
      alpha_param := { radius := 0, power := -1, radius_expr := none } }
    "2" rfl rfl rfl (by decide) (by decide)

/-- C6: at geometry negotiation, after evaluating the radius expressions, if
any resolved radius is negative or twice it exceeds the relevant plane minimum
dimension (luma and alpha against the full frame, chroma against the
subsampled chroma size), config_input fails with an invalidRadius error that
names an offending component together with the maximum allowed value
(min/2), and no resolved parameters are produced. -/
theorem c6_invalid_radius_rejected (eval : String → VarVals → Option Int)
    (bb : BoxBlurContext) (w h hsub vsub : Nat) (el ec ea : String) (rl rc ra : Int)
    (hle : bb.luma_param.radius_expr = some el)
    (hce : bb.chroma_param.radius_expr = some ec)
    (hae : bb.alpha_param.radius_expr = some ea)
    (hrl : eval el (mkVarVals w h hsub vsub) = some rl)
    (hrc : eval ec (mkVarVals w h hsub vsub) = some rc)
    (hra : eval ea (mkVarVals w h hsub vsub) = some ra)
    (hviol : (rl < 0 ∨ 2*rl > ((min w h : Nat) : Int)) ∨
             (rc < 0 ∨ 2*rc > ((min (w >>> hsub) (h >>> vsub) : Nat) : Int)) ∨
             (ra < 0 ∨ 2*ra > ((min w h : Nat) : Int))) :
    ∃ c maxv, config_input eval bb w h hsub vsub
        = Except.error (CfgError.invalidRadius c maxv) ∧
      ((c = Comp.luma ∧ maxv = (((min w h) / 2 : Nat) : Int) ∧
          (rl < 0 ∨ 2*rl > ((min w h : Nat) : Int))) ∨
       (c = Comp.chroma ∧ maxv = (((min (w >>> hsub) (h >>> vsub)) / 2 : Nat) : Int) ∧
          (rc < 0 ∨ 2*rc > ((min (w >>> hsub) (h >>> vsub) : Nat) : Int))) ∨
       (c = Comp.alpha ∧ maxv = (((min w h) / 2 : Nat) : Int) ∧
          (ra < 0 ∨ 2*ra > ((min w h : Nat) : Int)))) := by
  have key : config_input eval bb w h hsub vsub
      = (if rl < 0 ∨ 2*rl > ((min w h : Nat) : Int) then
           Except.error (CfgError.invalidRadius Comp.luma (((min w h) / 2 : Nat) : Int))
         else if rc < 0 ∨ 2*rc > ((min (w >>> hsub) (h >>> vsub) : Nat) : Int) then
           Except.error (CfgError.invalidRadius Comp.chroma
             (((min (w >>> hsub) (h >>> vsub)) / 2 : Nat) : Int))
         else if ra < 0 ∨ 2*ra > ((min w h : Nat) : Int) then
           Except.error (CfgError.invalidRadius Comp.alpha (((min w h) / 2 : Nat) : Int))
         else Except.ok { radiusY := rl, radiusU := rc, radiusV := rc, radiusA := ra, powerY := bb.luma_param.power, powerU := bb.chroma_param.power, powerV := bb.chroma_param.power, powerA := bb.alpha_param.power }) := by
    simp only [config_input, hle, hce, hae, Option.some_bind, hrl, hrc, hra]
  rw [key]
  by_cases h1 : rl < 0 ∨ 2*rl > ((min w h : Nat) : Int)
  · refine ⟨Comp.luma, (((min w h) / 2 : Nat) : Int), ?_, Or.inl ⟨rfl, rfl, h1⟩⟩
    rw [if_pos h1]
  · rw [if_neg h1]
    by_cases h2 : rc < 0 ∨ 2*rc > ((min (w >>> hsub) (h >>> vsub) : Nat) : Int)
    · refine ⟨Comp.chroma, (((min (w >>> hsub) (h >>> vsub)) / 2 : Nat) : Int), ?_,
        Or.inr (Or.inl ⟨rfl, rfl, h2⟩)⟩
      rw [if_pos h2]
    · rw [if_neg h2]
      have h3 : ra < 0 ∨ 2*ra > ((min w h : Nat) : Int) := by tauto
      refine ⟨Comp.alpha, (((min w h) / 2 : Nat) : Int), ?_,
        Or.inr (Or.inr ⟨rfl, rfl, h3⟩)⟩
      rw [if_pos h3]

theorem c6_invalid_radius_rejected_witness :
    ∃ c maxv,
      config_input (fun _ _ => some 40)
        { luma_param := { radius := 0, power := 2, radius_expr := some "40" },
          chroma_param := { radius := 0, power := 2, radius_expr := some "40" },
          alpha_param := { radius := 0, power := 2, radius_expr := some "40" } }
        64 64 1 1
        = Except.error (CfgError.invalidRadius c maxv) ∧
      ((c = Comp.luma ∧ maxv = (((min 64 64) / 2 : Nat) : Int) ∧
          ((40:Int) < 0 ∨ 2*40 > ((min 64 64 : Nat) : Int))) ∨
       (c = Comp.chroma ∧ maxv = (((min (64 >>> 1) (64 >>> 1)) / 2 : Nat) : Int) ∧
          ((40:Int) < 0 ∨ 2*40 > ((min (64 >>> 1) (64 >>> 1) : Nat) : Int))) ∨
       (c = Comp.alpha ∧ maxv = (((min 64 64) / 2 : Nat) : Int) ∧
          ((40:Int) < 0 ∨ 2*40 > ((min 64 64 : Nat) : Int)))) :=
  c6_invalid_radius_rejected (fun _ _ => some 40)
    { luma_param := { radius := 0, power := 2, radius_expr := some "40" },
      chroma_param := { radius := 0, power := 2, radius_expr := some "40" },
      alpha_param := { radius := 0, power := 2, radius_expr := some "40" } }
    64 64 1 1 "40" "40" "40" 40 40 40 rfl rfl rfl rfl rfl rfl
    (by decide)

/-! ### Claim C7: the in-place vertical pass

The vertical driver is run by the frame orchestrator with destination equal to
source.  The lemmas below show that this in-place run produces the same plane
contents as a run into a fresh non-aliasing destination: each column is blurred
through the scratch buffers start-to-finish before the next column begins, and
a column's writes never touch the unread remainder of the source plane. -/

theorem colAddr_inj (base ls x x' y y' : Nat) (hls : 0 < ls) (hx : x < ls) (hx' : x' < ls)
    (h : base + x + y*ls = base + x' + y'*ls) : x = x' ∧ y = y' := by
  have h' : x + y*ls = x' + y'*ls := by omega
  have hm1 : (x + y*ls) % ls = x % ls := Nat.add_mul_mod_self_right x y ls
  have hm2 : (x' + y'*ls) % ls = x' % ls := Nat.add_mul_mod_self_right x' y' ls
  rw [h'] at hm1
  rw [hm2] at hm1
  have hxx : x' = x := by
    rw [Nat.mod_eq_of_lt hx', Nat.mod_eq_of_lt hx] at hm1
    exact hm1
  subst hxx
  have hyl : y*ls = y'*ls := by omega
  exact ⟨rfl, Nat.eq_of_mul_eq_mul_right hls hyl⟩

/-- A perfectly aligned in-place copy leaves every byte-valued memory cell
unchanged. -/
theorem copyLoop_inplace_id (c s : Nat) :
    ∀ (n i : Nat) (m : Mem), (∀ a, m a < 256) →
      ∀ a, copyLoop c s c s n i m a = m a := by
  intro n
  induction n with
  | zero => intro i m _ a; rfl
  | succ nn ih =>
    intro i m hb a
    show copyLoop c s c s nn (i+1) (wr8 m (c + i*s) ((m (c + i*s) : Nat) : Int)) a = m a
    have hpt : ∀ b, wr8 m (c + i*s) ((m (c + i*s) : Nat) : Int) b = m b := by
      intro b
      by_cases hba : b = c + i*s
      · subst hba
        rw [wr8_same, emod256_natCast, Nat.mod_eq_of_lt (hb _)]
      · exact wr8_other _ _ _ _ hba
    rw [funext hpt]
    exact ih (i+1) m hb a

theorem copyLoop_inplace_eq (c s n i : Nat) (m : Mem) (hb : ∀ a, m a < 256) :
    copyLoop c s c s n i m = m := funext (copyLoop_inplace_id c s n i m hb)

/-- The buffer returned by the ping-pong loop is one of the two buffers it was
given. -/
theorem powLoop_snd_mem (len radius : Nat) :
    ∀ (p a b : Nat) (m : Mem),
      (powLoop len radius p a b m).2 = a ∨ (powLoop len radius p a b m).2 = b := by
  intro p
  induction p using Nat.strong_induction_on with
  | _ p ih =>
    match p with
    | 0 =>
      intro a b m
      have hstep : powLoop len radius 0 a b m = (m, a) := by simp only [powLoop]
      rw [hstep]; exact Or.inl rfl
    | 1 =>
      intro a b m
      have hstep : powLoop len radius 1 a b m = (m, a) := by simp only [powLoop]
      rw [hstep]; exact Or.inl rfl
    | 2 =>
      intro a b m
      have hstep : powLoop len radius 2 a b m = (m, a) := by simp only [powLoop]
      rw [hstep]; exact Or.inl rfl
    | q+3 =>
      intro a b m
      have hstep : powLoop len radius (q+3) a b m
          = powLoop len radius (q+2) b a (blur m b 1 a 1 len radius) := by
        simp only [powLoop]
      rw [hstep]
      exact (ih (q+2) (by omega) b a _).symm.imp id id

/-- The buffer returned by the ping-pong loop does not depend on the memory. -/
theorem powLoop_snd_pair (len radius : Nat) :
    ∀ (p a b : Nat) (m1 m2 : Mem),
      (powLoop len radius p a b m1).2 = (powLoop len radius p a b m2).2 := by
  intro p
  induction p using Nat.strong_induction_on with
  | _ p ih =>
    match p with
    | 0 =>
      intro a b m1 m2
      have h1 : powLoop len radius 0 a b m1 = (m1, a) := by simp only [powLoop]
      have h2 : powLoop len radius 0 a b m2 = (m2, a) := by simp only [powLoop]
      rw [h1, h2]
    | 1 =>
      intro a b m1 m2
      have h1 : powLoop len radius 1 a b m1 = (m1, a) := by simp only [powLoop]
      have h2 : powLoop len radius 1 a b m2 = (m2, a) := by simp only [powLoop]
      rw [h1, h2]
    | 2 =>
      intro a b m1 m2
      have h1 : powLoop len radius 2 a b m1 = (m1, a) := by simp only [powLoop]
      have h2 : powLoop len radius 2 a b m2 = (m2, a) := by simp only [powLoop]
      rw [h1, h2]
    | q+3 =>
      intro a b m1 m2
      have h1 : powLoop len radius (q+3) a b m1
          = powLoop len radius (q+2) b a (blur m1 b 1 a 1 len radius) := by
        simp only [powLoop]
      have h2 : powLoop len radius (q+3) a b m2
          = powLoop len radius (q+2) b a (blur m2 b 1 a 1 len radius) := by
        simp only [powLoop]
      rw [h1, h2]
      exact ih (q+2) (by omega) b a _ _

/-- The ping-pong loop writes only inside the two scratch runs. -/
theorem powLoop_frame (len radius : Nat) (hrl : radius < len) :
    ∀ (p a b : Nat) (m : Mem) (x : Nat),
      (∀ i, i < len → x ≠ a + i ∧ x ≠ b + i) →
      (powLoop len radius p a b m).1 x = m x := by
  intro p
  induction p using Nat.strong_induction_on with
  | _ p ih =>
    match p with
    | 0 =>
      intro a b m x _
      have hstep : powLoop len radius 0 a b m = (m, a) := by simp only [powLoop]
      rw [hstep]
    | 1 =>
      intro a b m x _
      have hstep : powLoop len radius 1 a b m = (m, a) := by simp only [powLoop]
      rw [hstep]
    | 2 =>
      intro a b m x _
      have hstep : powLoop len radius 2 a b m = (m, a) := by simp only [powLoop]
      rw [hstep]
    | q+3 =>
      intro a b m x hx
      have hstep : powLoop len radius (q+3) a b m
          = powLoop len radius (q+2) b a (blur m b 1 a 1 len radius) := by
        simp only [powLoop]
      rw [hstep]
      rw [ih (q+2) (by omega) b a _ x (fun i hi => ⟨(hx i hi).2, (hx i hi).1⟩)]
      exact blur_frame _ _ _ _ _ _ _ hrl x (fun i hi => by
        simpa using (hx i hi).2)

/-- The power compositor writes only inside the destination run and the two
scratch runs. -/
theorem blur_power_frame (m : Mem) (dst ds src ss len radius power t0 t1 : Nat)
    (hrl : radius < len) (x : Nat)
    (hx : ∀ i, i < len → x ≠ dst + i*ds ∧ x ≠ t0 + i ∧ x ≠ t1 + i) :
    blur_power m dst ds src ss len radius power t0 t1 x = m x := by
  unfold blur_power
  by_cases hcond : radius ≠ 0 ∧ power ≠ 0
  · rw [if_pos hcond]
    by_cases h1p : 1 < power
    · rw [if_pos h1p]
      rw [blur_frame _ _ _ _ _ _ _ hrl x (fun i hi => (hx i hi).1)]
      rw [powLoop_frame len radius hrl power t0 t1 _ x
        (fun i hi => ⟨(hx i hi).2.1, (hx i hi).2.2⟩)]
      exact blur_frame _ _ _ _ _ _ _ hrl x (fun i hi => by
        simpa using (hx i hi).2.1)
    · rw [if_neg h1p]
      rw [copyLoop_frame dst ds _ 1 len 0 _ x (fun k hk => by
        simpa using (hx k hk).1)]
      rw [powLoop_frame len radius hrl power t0 t1 _ x
        (fun i hi => ⟨(hx i hi).2.1, (hx i hi).2.2⟩)]
      exact blur_frame _ _ _ _ _ _ _ hrl x (fun i hi => by
        simpa using (hx i hi).2.1)
  · rw [if_neg hcond]
    exact copyLoop_frame dst ds src ss len 0 m x (fun k hk => by
      simpa using (hx k hk).1)

/-- Pair invariant of the ping-pong loop: two runs over memories that agree on
the (extended) scratch windows keep agreeing on them. -/
theorem powLoop_pair (len radius t0 t1 : Nat) (hrl : radius < len)
    (htt : ∀ i j, i < len → j < readBound len radius → t0 + i ≠ t1 + j ∧ t1 + i ≠ t0 + j) :
    ∀ (p a b : Nat) (m1 m2 : Mem),
      ((a = t0 ∧ b = t1) ∨ (a = t1 ∧ b = t0)) →
      (∀ j, j < readBound len radius → m1 (t0 + j) = m2 (t0 + j) ∧ m1 (t1 + j) = m2 (t1 + j)) →
      ∀ j, j < readBound len radius →
        (powLoop len radius p a b m1).1 (t0 + j) = (powLoop len radius p a b m2).1 (t0 + j) ∧
        (powLoop len radius p a b m1).1 (t1 + j) = (powLoop len radius p a b m2).1 (t1 + j) := by
  intro p
  induction p using Nat.strong_induction_on with
  | _ p ih =>
    match p with
    | 0 =>
      intro a b m1 m2 _ hag j hj
      have h1 : powLoop len radius 0 a b m1 = (m1, a) := by simp only [powLoop]
      have h2 : powLoop len radius 0 a b m2 = (m2, a) := by simp only [powLoop]
      rw [h1, h2]; exact hag j hj
    | 1 =>
      intro a b m1 m2 _ hag j hj
      have h1 : powLoop len radius 1 a b m1 = (m1, a) := by simp only [powLoop]
      have h2 : powLoop len radius 1 a b m2 = (m2, a) := by simp only [powLoop]
      rw [h1, h2]; exact hag j hj
    | 2 =>
      intro a b m1 m2 _ hag j hj
      have h1 : powLoop len radius 2 a b m1 = (m1, a) := by simp only [powLoop]
      have h2 : powLoop len radius 2 a b m2 = (m2, a) := by simp only [powLoop]
      rw [h1, h2]; exact hag j hj
    | q+3 =>
      intro a b m1 m2 hab hag j hj
      have h1 : powLoop len radius (q+3) a b m1
          = powLoop len radius (q+2) b a (blur m1 b 1 a 1 len radius) := by
        simp only [powLoop]
      have h2 : powLoop len radius (q+3) a b m2
          = powLoop len radius (q+2) b a (blur m2 b 1 a 1 len radius) := by
        simp only [powLoop]
      rw [h1, h2]
      refine ih (q+2) (by omega) b a _ _ (hab.symm.imp And.symm And.symm) ?_ j hj
      have hagA : ∀ i, i < readBound len radius → m1 (a + i) = m2 (a + i) := by
        intro i hi
        rcases hab with ⟨ha, _⟩ | ⟨ha, _⟩
        · rw [ha]; exact (hag i hi).1
        · rw [ha]; exact (hag i hi).2
      have hdisj : ∀ i j2, i < len → j2 < readBound len radius → b + i*1 ≠ a + j2*1 := by
        intro i j2 hi hj2
        simp only [Nat.mul_one]
        rcases hab with ⟨ha, hb⟩ | ⟨ha, hb⟩
        · rw [ha, hb]; exact (htt i j2 hi hj2).2
        · rw [ha, hb]; exact (htt i j2 hi hj2).1
      have hs1 := blur_spec m1 b 1 a 1 len radius (fun i => m1 (a + i)) one_pos hrl
        (fun i _ => by simp) hdisj
      have hs2 := blur_spec m2 b 1 a 1 len radius (fun i => m1 (a + i)) one_pos hrl
        (fun i hi => by simpa using (hagA i hi).symm) hdisj
      intro k hk
      have key : ∀ c, (c = t0 ∨ c = t1) →
          blur m1 b 1 a 1 len radius (c + k) = blur m2 b 1 a 1 len radius (c + k) := by
        intro c hc
        by_cases hcb : c = b
        · subst hcb
          by_cases hkl : k < len
          · have e1 := hs1 k hkl
            have e2 := hs2 k hkl
            simp only [Nat.mul_one] at e1 e2
            rw [e1, e2]
          · rw [blur_frame m1 _ 1 a 1 len radius hrl _ (fun i hi => by
              simp only [Nat.mul_one]; omega)]
            rw [blur_frame m2 _ 1 a 1 len radius hrl _ (fun i hi => by
              simp only [Nat.mul_one]; omega)]
            rcases hab with ⟨_, hb⟩ | ⟨_, hb⟩
            · rw [hb]; exact (hag k hk).2
            · rw [hb]; exact (hag k hk).1
        · have hcna : ∀ i, i < len → c + k ≠ b + i*1 := by
            intro i hi
            simp only [Nat.mul_one]
            rcases hab with ⟨ha, hb⟩ | ⟨ha, hb⟩ <;> rcases hc with hc0 | hc1
            · rw [hb, hc0]; exact ((htt i k hi hk).2).symm
            · exact absurd (hc1.trans hb.symm) hcb
            · exact absurd (hc0.trans hb.symm) hcb
            · rw [hb, hc1]; exact ((htt i k hi hk).1).symm
          rw [blur_frame m1 _ 1 a 1 len radius hrl _ hcna]
          rw [blur_frame m2 _ 1 a 1 len radius hrl _ hcna]
          rcases hc with hc0 | hc1
          · rw [hc0]; exact (hag k hk).1
          · rw [hc1]; exact (hag k hk).2
      exact ⟨key t0 (Or.inl rfl), key t1 (Or.inr rfl)⟩

/-- Pair correctness of the power compositor: two runs from memories that agree
on the source read window and on the scratch windows, into possibly different
destinations (either of which may alias the source, as the in-place vertical
pass does), write the same values into their destination runs and leave the
scratch windows in agreement. -/
theorem blur_power_pair (m1 m2 : Mem) (dst1 dst2 ds src ss len radius power t0 t1 : Nat)
    (hds : 0 < ds) (hrl : radius < len)
    (hsrc : ∀ j, j < readBound len radius → m1 (src + j*ss) = m2 (src + j*ss))
    (htmp : ∀ j, j < readBound len radius → m1 (t0 + j) = m2 (t0 + j) ∧ m1 (t1 + j) = m2 (t1 + j))
    (htt : ∀ i j, i < len → j < readBound len radius → t0 + i ≠ t1 + j ∧ t1 + i ≠ t0 + j)
    (htsrc : ∀ i j, i < len → j < readBound len radius → t0 + i ≠ src + j*ss ∧ t1 + i ≠ src + j*ss)
    (hnc1 : ∀ i j, i < j → j < len → dst1 + i*ds ≠ src + j*ss)
    (hnc2 : ∀ i j, i < j → j < len → dst2 + i*ds ≠ src + j*ss)
    (hdT1 : ∀ i j, i < len → j < readBound len radius → dst1 + i*ds ≠ t0 + j ∧ dst1 + i*ds ≠ t1 + j)
    (hdT2 : ∀ i j, i < len → j < readBound len radius → dst2 + i*ds ≠ t0 + j ∧ dst2 + i*ds ≠ t1 + j) :
    (∀ i, i < len →
      blur_power m1 dst1 ds src ss len radius power t0 t1 (dst1 + i*ds)
        = blur_power m2 dst2 ds src ss len radius power t0 t1 (dst2 + i*ds)) ∧
    (∀ j, j < readBound len radius →
      blur_power m1 dst1 ds src ss len radius power t0 t1 (t0 + j)
        = blur_power m2 dst2 ds src ss len radius power t0 t1 (t0 + j) ∧
      blur_power m1 dst1 ds src ss len radius power t0 t1 (t1 + j)
        = blur_power m2 dst2 ds src ss len radius power t0 t1 (t1 + j)) := by
  have hlenRB : len ≤ readBound len radius := le_max_left _ _
  by_cases hcond : radius ≠ 0 ∧ power ≠ 0
  · obtain ⟨hr, hp⟩ := hcond
    have hbp1 : blur_power m1 dst1 ds src ss len radius power t0 t1
        = (if 1 < power then
            blur (powLoop len radius power t0 t1 (blur m1 t0 1 src ss len radius)).1 dst1 ds
              (powLoop len radius power t0 t1 (blur m1 t0 1 src ss len radius)).2 1 len radius
           else
            copyLoop dst1 ds (powLoop len radius power t0 t1 (blur m1 t0 1 src ss len radius)).2 1
              len 0 (powLoop len radius power t0 t1 (blur m1 t0 1 src ss len radius)).1) := by
      unfold blur_power
      rw [if_pos ⟨hr, hp⟩]
    have hbp2 : blur_power m2 dst2 ds src ss len radius power t0 t1
        = (if 1 < power then
            blur (powLoop len radius power t0 t1 (blur m2 t0 1 src ss len radius)).1 dst2 ds
              (powLoop len radius power t0 t1 (blur m2 t0 1 src ss len radius)).2 1 len radius
           else
            copyLoop dst2 ds (powLoop len radius power t0 t1 (blur m2 t0 1 src ss len radius)).2 1
              len 0 (powLoop len radius power t0 t1 (blur m2 t0 1 src ss len radius)).1) := by
      unfold blur_power
      rw [if_pos ⟨hr, hp⟩]
    set M1 := blur m1 t0 1 src ss len radius with hM1
    set M2 := blur m2 t0 1 src ss len radius with hM2
    have hdisj0 : ∀ i j, i < len → j < readBound len radius → t0 + i*1 ≠ src + j*ss :=
      fun i j hi hj => by simpa using (htsrc i j hi hj).1
    have hs1 := blur_spec m1 t0 1 src ss len radius (fun i => m1 (src + i*ss)) one_pos hrl
      (fun i _ => rfl) hdisj0
    have hs2 := blur_spec m2 t0 1 src ss len radius (fun i => m1 (src + i*ss)) one_pos hrl
      (fun i hi => (hsrc i hi).symm) hdisj0
    have htmp1 : ∀ j, j < readBound len radius →
        M1 (t0 + j) = M2 (t0 + j) ∧ M1 (t1 + j) = M2 (t1 + j) := by
      intro j hj
      constructor
      · by_cases hjl : j < len
        · have e1 := hs1 j hjl
          have e2 := hs2 j hjl
          simp only [Nat.mul_one] at e1 e2
          rw [hM1, hM2, e1, e2]
        · rw [hM1, hM2]
          rw [blur_frame m1 t0 1 src ss len radius hrl _ (fun i hi => by
            simp only [Nat.mul_one]; omega)]
          rw [blur_frame m2 t0 1 src ss len radius hrl _ (fun i hi => by
            simp only [Nat.mul_one]; omega)]
          exact (htmp j hj).1
      · rw [hM1, hM2]
        rw [blur_frame m1 t0 1 src ss len radius hrl _ (fun i hi => by
          simpa using ((htt i j hi hj).1).symm)]
        rw [blur_frame m2 t0 1 src ss len radius hrl _ (fun i hi => by
          simpa using ((htt i j hi hj).1).symm)]
        exact (htmp j hj).2
    have hPL := powLoop_pair len radius t0 t1 hrl htt power t0 t1 M1 M2
      (Or.inl ⟨rfl, rfl⟩) htmp1
    have hsnd : (powLoop len radius power t0 t1 M1).2 = (powLoop len radius power t0 t1 M2).2 :=
      powLoop_snd_pair len radius power t0 t1 M1 M2
    have hmem := powLoop_snd_mem len radius power t0 t1 M1
    constructor
    · intro i hi
      rw [hbp1, hbp2]
      by_cases h1p : 1 < power
      · rw [if_pos h1p, if_pos h1p]
        have hb1 := blur_spec (powLoop len radius power t0 t1 M1).1 dst1 ds
          (powLoop len radius power t0 t1 M1).2 1 len radius
          (fun k => (powLoop len radius power t0 t1 M1).1 ((powLoop len radius power t0 t1 M1).2 + k))
          hds hrl
          (fun k _ => by simp)
          (fun a j ha hj => by
            simp only [Nat.mul_one]
            rcases hmem with h | h
            · rw [h]; exact (hdT1 a j ha hj).1
            · rw [h]; exact (hdT1 a j ha hj).2)
        have hb2 := blur_spec (powLoop len radius power t0 t1 M2).1 dst2 ds
          (powLoop len radius power t0 t1 M2).2 1 len radius
          (fun k => (powLoop len radius power t0 t1 M1).1 ((powLoop len radius power t0 t1 M1).2 + k))
          hds hrl
          (fun k hk => by
            rw [← hsnd]
            rcases hmem with h | h
            · rw [h]; simpa using ((hPL k hk).1).symm
            · rw [h]; simpa using ((hPL k hk).2).symm)
          (fun a j ha hj => by
            rw [← hsnd]
            simp only [Nat.mul_one]
            rcases hmem with h | h
            · rw [h]; exact (hdT2 a j ha hj).1
            · rw [h]; exact (hdT2 a j ha hj).2)
        rw [hb1 i hi, hb2 i hi]
      · rw [if_neg h1p, if_neg h1p]
        have hc1 := copyLoop_spec dst1 ds (powLoop len radius power t0 t1 M1).2 1 hds len 0
          (powLoop len radius power t0 t1 M1).1
          (fun a b hab hb => by
            simp only [Nat.zero_add, Nat.mul_one]
            rcases hmem with h | h
            · rw [h]; exact (hdT1 a b (by omega) (by omega)).1
            · rw [h]; exact (hdT1 a b (by omega) (by omega)).2)
          i hi
        have hc2 := copyLoop_spec dst2 ds (powLoop len radius power t0 t1 M2).2 1 hds len 0
          (powLoop len radius power t0 t1 M2).1
          (fun a b hab hb => by
            simp only [Nat.zero_add, Nat.mul_one]
            rw [← hsnd]
            rcases hmem with h | h
            · rw [h]; exact (hdT2 a b (by omega) (by omega)).1
            · rw [h]; exact (hdT2 a b (by omega) (by omega)).2)
          i hi
        simp only [Nat.zero_add, Nat.mul_one] at hc1 hc2
        rw [hc1, hc2, ← hsnd]
        rcases hmem with h | h
        · rw [h, ((hPL i (by omega)).1)]
        · rw [h, ((hPL i (by omega)).2)]
    · intro j hj
      rw [hbp1, hbp2]
      by_cases h1p : 1 < power
      · rw [if_pos h1p, if_pos h1p]
        constructor
        · rw [blur_frame _ dst1 ds _ 1 len radius hrl _ (fun i hi => ((hdT1 i j hi hj).1).symm)]
          rw [blur_frame _ dst2 ds _ 1 len radius hrl _ (fun i hi => ((hdT2 i j hi hj).1).symm)]
          exact (hPL j hj).1
        · rw [blur_frame _ dst1 ds _ 1 len radius hrl _ (fun i hi => ((hdT1 i j hi hj).2).symm)]
          rw [blur_frame _ dst2 ds _ 1 len radius hrl _ (fun i hi => ((hdT2 i j hi hj).2).symm)]
          exact (hPL j hj).2
      · rw [if_neg h1p, if_neg h1p]
        constructor
        · rw [copyLoop_frame dst1 ds _ 1 len 0 _ _ (fun k hk => by
            simpa using ((hdT1 k j hk hj).1).symm)]
          rw [copyLoop_frame dst2 ds _ 1 len 0 _ _ (fun k hk => by
            simpa using ((hdT2 k j hk hj).1).symm)]
          exact (hPL j hj).1
        · rw [copyLoop_frame dst1 ds _ 1 len 0 _ _ (fun k hk => by
            simpa using ((hdT1 k j hk hj).2).symm)]
          rw [copyLoop_frame dst2 ds _ 1 len 0 _ _ (fun k hk => by
            simpa using ((hdT2 k j hk hj).2).symm)]
          exact (hPL j hj).2
  · have hbp1 : blur_power m1 dst1 ds src ss len radius power t0 t1
        = copyLoop dst1 ds src ss len 0 m1 := by
      unfold blur_power
      rw [if_neg hcond]
    have hbp2 : blur_power m2 dst2 ds src ss len radius power t0 t1
        = copyLoop dst2 ds src ss len 0 m2 := by
      unfold blur_power
      rw [if_neg hcond]
    constructor
    · intro i hi
      rw [hbp1, hbp2]
      have c1 := copyLoop_spec dst1 ds src ss hds len 0 m1
        (fun k j hkj hj => by simpa using hnc1 k j hkj hj) i hi
      have c2 := copyLoop_spec dst2 ds src ss hds len 0 m2
        (fun k j hkj hj => by simpa using hnc2 k j hkj hj) i hi
      simp only [Nat.zero_add] at c1 c2
      rw [c1, c2, hsrc i (by omega)]
    · intro j hj
      rw [hbp1, hbp2]
      constructor
      · rw [copyLoop_frame dst1 ds src ss len 0 m1 _ (fun k hk => by
          simpa using ((hdT1 k j hk hj).1).symm)]
        rw [copyLoop_frame dst2 ds src ss len 0 m2 _ (fun k hk => by
          simpa using ((hdT2 k j hk hj).1).symm)]
        exact (htmp j hj).1
      · rw [copyLoop_frame dst1 ds src ss len 0 m1 _ (fun k hk => by
          simpa using ((hdT1 k j hk hj).2).symm)]
        rw [copyLoop_frame dst2 ds src ss len 0 m2 _ (fun k hk => by
          simpa using ((hdT2 k j hk hj).2).symm)]
        exact (htmp j hj).2

/-- The column loop writes only inside its destination columns and the scratch
runs. -/
theorem vblurLoop_frame (dst dls src sls h radius power t0 t1 : Nat) (hrl : radius < h) :
    ∀ (n x0 : Nat) (m : Mem) (a : Nat),
      (∀ x i, x0 ≤ x → x < x0 + n → i < h → a ≠ dst + x + i*dls) →
      (∀ i, i < h → a ≠ t0 + i ∧ a ≠ t1 + i) →
      vblurLoop dst dls src sls h radius power t0 t1 n x0 m a = m a := by
  intro n
  induction n with
  | zero => intro x0 m a _ _; rfl
  | succ nn ih =>
    intro x0 m a hp ht
    show vblurLoop dst dls src sls h radius power t0 t1 nn (x0+1)
        (blur_power m (dst + x0) dls (src + x0) sls h radius power t0 t1) a = m a
    rw [ih (x0+1) _ a (fun x i hx1 hx2 hi => hp x i (by omega) (by omega) hi) ht]
    exact blur_power_frame m (dst + x0) dls (src + x0) sls h radius power t0 t1 hrl a
      (fun i hi => ⟨hp x0 i (le_refl _) (by omega) hi, (ht i hi).1, (ht i hi).2⟩)

/-- With radius zero, the in-place column loop is the identity on byte-valued
memory: each column copies onto itself. -/
theorem vblurLoop_r0_inplace (pbase ls h power t0 t1 : Nat) :
    ∀ (n x0 : Nat) (m : Mem), (∀ a, m a < 256) →
      vblurLoop pbase ls pbase ls h 0 power t0 t1 n x0 m = m := by
  intro n
  induction n with
  | zero => intro x0 m _; rfl
  | succ nn ih =>
    intro x0 m hb
    show vblurLoop pbase ls pbase ls h 0 power t0 t1 nn (x0+1)
        (blur_power m (pbase + x0) ls (pbase + x0) ls h 0 power t0 t1) = m
    have hbp : blur_power m (pbase + x0) ls (pbase + x0) ls h 0 power t0 t1 = m := by
      unfold blur_power
      rw [if_neg (by simp)]
      exact copyLoop_inplace_eq (pbase + x0) ls h 0 m hb
    rw [hbp]
    exact ih (x0+1) m hb

/-- Pair invariant of the column loop: the in-place run and the fresh-destination
run process the same columns from agreeing memories and produce the same output
samples, column by column. -/
theorem vblurLoop_pair (p d ls w h radius power t0 t1 : Nat)
    (hls : 0 < ls) (hwls : w ≤ ls) (hrl : radius < h)
    (hpd : ∀ x y x' y', x < w → y < readBound h radius → x' < w → y' < readBound h radius →
      p + x + y*ls ≠ d + x' + y'*ls)
    (hpt : ∀ x y i, x < w → y < readBound h radius → i < readBound h radius →
      p + x + y*ls ≠ t0 + i ∧ p + x + y*ls ≠ t1 + i)
    (hdt : ∀ x y i, x < w → y < readBound h radius → i < readBound h radius →
      d + x + y*ls ≠ t0 + i ∧ d + x + y*ls ≠ t1 + i)
    (htt : ∀ i j, i < h → j < readBound h radius → t0 + i ≠ t1 + j ∧ t1 + i ≠ t0 + j) :
    ∀ (n x0 : Nat) (m1 m2 : Mem),
      x0 + n ≤ w →
      (∀ x k, x0 ≤ x → x < w → k < readBound h radius →
        m1 (p + x + k*ls) = m2 (p + x + k*ls)) →
      (∀ j, j < readBound h radius → m1 (t0 + j) = m2 (t0 + j) ∧ m1 (t1 + j) = m2 (t1 + j)) →
      ∀ x y, x0 ≤ x → x < x0 + n → y < h →
        vblurLoop p ls p ls h radius power t0 t1 n x0 m1 (p + x + y*ls)
          = vblurLoop d ls p ls h radius power t0 t1 n x0 m2 (d + x + y*ls) := by
  have hRBh : h ≤ readBound h radius := le_max_left _ _
  intro n
  induction n with
  | zero => intro x0 m1 m2 _ _ _ x y hx1 hx2 _; omega
  | succ nn ih =>
    intro x0 m1 m2 hnw hagsrc hagtmp x y hx1 hx2 hy
    have hx0w : x0 < w := by omega
    have hx0ls : x0 < ls := by omega
    obtain ⟨hdstPair, htmpPair⟩ := blur_power_pair m1 m2 (p + x0) (d + x0) ls (p + x0) ls
      h radius power t0 t1 hls hrl
      (fun j hj => hagsrc x0 j (le_refl _) hx0w hj)
      hagtmp htt
      (fun i j hi hj => ⟨((hpt x0 j i hx0w hj (by omega)).1).symm,
                         ((hpt x0 j i hx0w hj (by omega)).2).symm⟩)
      (fun i j hij hj => fun heq => absurd (addr_inj _ hls heq) (by omega))
      (fun i j hij hj => ((hpd x0 j x0 i hx0w (by omega) hx0w (by omega)).symm))
      (fun i j hi hj => hpt x0 i j hx0w (by omega) hj)
      (fun i j hi hj => hdt x0 i j hx0w (by omega) hj)
    show vblurLoop p ls p ls h radius power t0 t1 nn (x0+1)
          (blur_power m1 (p + x0) ls (p + x0) ls h radius power t0 t1) (p + x + y*ls)
        = vblurLoop d ls p ls h radius power t0 t1 nn (x0+1)
          (blur_power m2 (d + x0) ls (p + x0) ls h radius power t0 t1) (d + x + y*ls)
    by_cases hxx : x = x0
    · subst hxx
      rw [vblurLoop_frame p ls p ls h radius power t0 t1 hrl nn (x+1) _ _
        (fun x' i hx'1 hx'2 hi => fun heq => by
          obtain ⟨hc, _⟩ := colAddr_inj p ls x x' y i hls (by omega) (by omega) heq
          omega)
        (fun i hi => hpt x y i (by omega) (by omega) (by omega))]
      rw [vblurLoop_frame d ls p ls h radius power t0 t1 hrl nn (x+1) _ _
        (fun x' i hx'1 hx'2 hi => fun heq => by
          obtain ⟨hc, _⟩ := colAddr_inj d ls x x' y i hls (by omega) (by omega) heq
          omega)
        (fun i hi => hdt x y i (by omega) (by omega) (by omega))]
      exact hdstPair y hy
    · refine ih (x0+1) _ _ (by omega) ?_ htmpPair x y (by omega) (by omega) hy
      intro x' k hx'1 hx'2 hk
      have h1 : blur_power m1 (p + x0) ls (p + x0) ls h radius power t0 t1 (p + x' + k*ls)
          = m1 (p + x' + k*ls) :=
        blur_power_frame m1 (p + x0) ls (p + x0) ls h radius power t0 t1 hrl _
          (fun i hi => ⟨fun heq => by
              obtain ⟨hc, _⟩ := colAddr_inj p ls x' x0 k i hls (by omega) hx0ls heq
              omega,
            (hpt x' k i hx'2 hk (by omega)).1, (hpt x' k i hx'2 hk (by omega)).2⟩)
      have h2 : blur_power m2 (d + x0) ls (p + x0) ls h radius power t0 t1 (p + x' + k*ls)
          = m2 (p + x' + k*ls) :=
        blur_power_frame m2 (d + x0) ls (p + x0) ls h radius power t0 t1 hrl _
          (fun i hi => ⟨hpd x' k x0 i hx'2 hk hx0w (by omega),
            (hpt x' k i hx'2 hk (by omega)).1, (hpt x' k i hx'2 hk (by omega)).2⟩)
      rw [h1, h2]
      exact hagsrc x' k (by omega) hx'2 hk

/-- C7: for every plane geometry and validated radius (`2*radius ≤ h`) and
every power, running the vertical pass in place (destination plane equal to
source plane, as the frame orchestrator does after the horizontal pass)
produces the same plane contents as running it from that source into a
distinct non-aliasing destination plane: each column is blurred through the
scratch buffers start-to-finish before the next column begins, and a column's
writes never touch the samples the later columns still read. -/
theorem c7_vblur_inplace (m : Mem) (p d ls w h radius power t0 t1 : Nat)
    (hls : 0 < ls) (hwls : w ≤ ls) (hval : 2*radius ≤ h) (hh : 0 < h)
    (hbytes : ∀ a, m a < 256)
    (hpd : ∀ x y x' y', x < w → y < readBound h radius → x' < w → y' < readBound h radius →
      p + x + y*ls ≠ d + x' + y'*ls)
    (hpt : ∀ x y i, x < w → y < readBound h radius → i < readBound h radius →
      p + x + y*ls ≠ t0 + i ∧ p + x + y*ls ≠ t1 + i)
    (hdt : ∀ x y i, x < w → y < readBound h radius → i < readBound h radius →
      d + x + y*ls ≠ t0 + i ∧ d + x + y*ls ≠ t1 + i)
    (htt : ∀ i j, i < h → j < readBound h radius → t0 + i ≠ t1 + j ∧ t1 + i ≠ t0 + j) :
    ∀ x y, x < w → y < h →
      vblur m p ls p ls w h radius power t0 t1 (p + x + y*ls)
        = vblur m d ls p ls w h radius power t0 t1 (d + x + y*ls) := by
  intro x y hx hy
  have hrl : radius < h := by omega
  have hRBh : h ≤ readBound h radius := le_max_left _ _
  have hdp : ¬ (radius = 0 ∧ d = p) := by
    rintro ⟨_, hdpe⟩
    exact (hpd x y x y hx (by omega) hx (by omega)) (by rw [hdpe])
  have hpair := vblurLoop_pair p d ls w h radius power t0 t1 hls hwls hrl hpd hpt hdt htt
    w 0 m m (by omega) (fun _ _ _ _ _ => rfl) (fun _ _ => ⟨rfl, rfl⟩) x y (by omega)
    (by omega) hy
  unfold vblur
  by_cases hr0 : radius = 0
  · rw [if_pos ⟨hr0, rfl⟩, if_neg hdp]
    rw [← hpair]
    subst hr0
    rw [vblurLoop_r0_inplace p ls h power t0 t1 w 0 m hbytes]
  · rw [if_neg (by rintro ⟨h1, _⟩; exact hr0 h1), if_neg (by rintro ⟨h1, _⟩; exact hr0 h1)]
    exact hpair

theorem c7_vblur_inplace_witness :
    vblur (fun a => a % 7) 0 2 0 2 2 3 1 2 100 200 (0 + 1 + 2*2)
      = vblur (fun a => a % 7) 50 2 0 2 2 3 1 2 100 200 (50 + 1 + 2*2) :=
  c7_vblur_inplace (fun a => a % 7) 0 50 2 2 3 1 2 100 200
    (by decide) (by decide) (by decide) (by decide)
    (fun a => by show a % 7 < 256; omega)
    (fun x y x' y' hx hy hx' hy' => by
      have h3 : readBound 3 1 = 3 := rfl
      rw [h3] at hy hy'
      omega)
    (fun x y i hx hy hi => by
      have h3 : readBound 3 1 = 3 := rfl
      rw [h3] at hy hi
      omega)
    (fun x y i hx hy hi => by
      have h3 : readBound 3 1 = 3 := rfl
      rw [h3] at hy hi
      omega)
    (fun i j hi hj => by
      have h3 : readBound 3 1 = 3 := rfl
      rw [h3] at hj
      omega)
    1 2 (by decide) (by decide)

end BoxBlur
